import Mathlib

/-!
Verification of the MCTS engine in `src/main.rs` (repository MCTS-Exercise).

The source implements a Monte Carlo Tree Search over a 10-round
heads/tails accumulation game.  Concrete code exists for the data model
(`GameState`, `Action`, `Node`, `Tree`), the expansion phase (`expand`),
the rollout phase (`simulate`), the terminal test (`is_terminal`) and the
terminal scoring (`evaluate`).  The selection helpers (`is_fully_expanded`,
`best_child`, `uct_value`), the move selector (`best_action`) and the body
of `backpropagate` are left unimplemented or unfinished in the source;
those parts are modelled from the specification and are marked as such in
their doc comments.

Rust's `i32` values stay far from overflow in every statement below
(scores and rounds are bounded by the ten-round game, visit counters by
the iteration count), so machine integers are embedded as `Int`.
Randomness (`rand::thread_rng` / `SliceRandom::choose`) is embedded as an
explicit stream of natural numbers: `choose` on a slice of length `len`
consumes one number `i` from the stream and picks index `i % len`, which
ranges over exactly the slice's indices.
-/

namespace MCTS

/-- `enum Action { Heads, Tails }` from the source. -/
inductive Action where
  | Heads : Action
  | Tails : Action
deriving DecidableEq, Repr

/-- `struct GameState` from the source: two scores, the two parties'
remaining legal actions, and a round counter. -/
structure GameState where
  my_score : Int
  op_score : Int
  my_possible_actions : List Action
  op_possible_actions : List Action
  round : Int
deriving DecidableEq, Repr

/-- `struct Node` from the source.  The Rust `children` field is
`Vec<Option<Box<Node>>>`, but every element ever pushed is `Some` (the
`From<Node>` impl wraps in `Some`), so children are embedded as a plain
list of nodes. -/
inductive Node where
  | mk : (id : Int) → (visits : Int) → (wins : Int) → (action : Action) →
      (state : GameState) → (children : List Node) →
      (parent_id : Option Int) → Node
deriving Repr

namespace Node

def id : Node → Int
  | .mk i _ _ _ _ _ _ => i

def visits : Node → Int
  | .mk _ v _ _ _ _ _ => v

def wins : Node → Int
  | .mk _ _ w _ _ _ _ => w

def action : Node → Action
  | .mk _ _ _ a _ _ _ => a

def state : Node → GameState
  | .mk _ _ _ _ s _ _ => s

def children : Node → List Node
  | .mk _ _ _ _ _ cs _ => cs

def parent_id : Node → Option Int
  | .mk _ _ _ _ _ _ p => p

/-- `Node::new`: fresh node with `visits = 1`, `wins = 0`, no children. -/
def new (id : Int) (action : Action) (state : GameState)
    (parent_id : Option Int) : Node :=
  .mk id 1 0 action state [] parent_id

/-- `Node::contains`: does some child carry this action? -/
def contains (n : Node) (a : Action) : Bool :=
  n.children.any (fun child => child.action == a)

/-- Replace the children list, keeping every other field. -/
def withChildren : Node → List Node → Node
  | .mk i v w a s _ p, cs => .mk i v w a s cs p

/-- Number of nodes in the tree.  The Rust selection loop terminates
because each `best_child` step descends into a strictly smaller subtree;
`size` is the bound used to totalize that loop. -/
noncomputable def size (t : Node) : Nat :=
  Node.rec (motive_1 := fun _ => Nat) (motive_2 := fun _ => Nat)
    (fun _ _ _ _ _ _ _ ih => 1 + ih) 0 (fun _ _ ih1 ih2 => ih1 + ih2) t

end Node

/-- Apply one element of `modifyAt`'s target list. -/
def modifyAt (f : α → α) : List α → Nat → List α
  | [], _ => []
  | x :: xs, 0 => f x :: xs
  | x :: xs, j + 1 => x :: modifyAt f xs j

/-- The node reached from `t` by following a list of child indices. -/
def nodeAt : Node → List Nat → Option Node
  | n, [] => some n
  | n, i :: p => match n.children.get? i with
    | some c => nodeAt c p
    | none => none

/-- Replace the whole subtree at a position. -/
def updateAt : Node → List Nat → Node → Node
  | _, [], m => m
  | n, i :: p, m => n.withChildren (modifyAt (fun c => updateAt c p m) n.children i)

/-- `is_terminal` from the source: `node.state.round == 10`. -/
def isTerminal (n : Node) : Bool :=
  n.state.round == 10

/-- `evaluate` from the source: `node.state.my_score > node.state.op_score`. -/
def evaluate (n : Node) : Bool :=
  decide (n.state.my_score > n.state.op_score)

/-- The successor state built inside `expand` (and, identically, inside the
`simulate` loop): Heads increments `my_score`, Tails increments `op_score`,
both action lists are cloned unchanged, and `round` advances by 1. -/
def applyAction (s : GameState) (a : Action) : GameState :=
  { my_score := if a = Action.Heads then s.my_score + 1 else s.my_score
    op_score := if a = Action.Tails then s.op_score + 1 else s.op_score
    my_possible_actions := s.my_possible_actions
    op_possible_actions := s.op_possible_actions
    round := s.round + 1 }

/-- One draw from the embedded random source: `SliceRandom::choose` on a
slice of length `len` consumes the next stream value `i` and picks index
`i % len`. -/
def rngNext (g : List Nat) : Nat × List Nat :=
  (g.headD 0, g.tail)

/-- The untried actions of a node: its state's legal actions minus the
actions already carried by a child (the filter in `expand`, lines
162-165). -/
def unexplored (n : Node) : List Action :=
  n.state.my_possible_actions.filter (fun a => ! n.contains a)

/-- `expand` from the source, acting on one node: pick a random untried
action, build the successor state, append a fresh `Node::new` child
carrying id `current_id + 1` and parent id `Some(current_id)`, and return
the updated node together with the new id counter.  `None` models the
`unwrap` panic when no untried action exists. -/
def expandNode (n : Node) (cid : Int) (g : List Nat) :
    Option (Node × Int × List Nat) :=
  match unexplored n with
  | [] => none
  | x :: xs =>
    let (i, g') := rngNext g
    let a := (x :: xs).get ⟨i % (x :: xs).length, Nat.mod_lt _ (Nat.succ_pos _)⟩
    let child := Node.new (cid + 1) a (applyAction n.state a) (some cid)
    some (n.withChildren (n.children ++ [child]), cid + 1, g')

/-- `expand` applied at a position inside the tree: rebuilds the spine and
also reports the index of the new child under its parent. -/
def expandAt (t : Node) (p : List Nat) (cid : Int) (g : List Nat) :
    Option (Node × Nat × Int × List Nat) :=
  match p with
  | [] => (expandNode t cid g).map
      (fun r => (r.1, t.children.length, r.2.1, r.2.2))
  | i :: p' => match t.children.get? i with
    | none => none
    | some c => (expandAt c p' cid g).map
        (fun r => (t.withChildren (modifyAt (fun _ => r.1) t.children i),
                   r.2.1, r.2.2.1, r.2.2.2))

/-- The rollout loop of `simulate` (lines 210-245), totalized by fuel:
while the transient node is not terminal, pick a random action among those
its (always empty) children do not carry, build the successor state, and
move to a fresh detached `Node::new`.  `none` models either the `unwrap`
panic on an empty action list or a loop that outlives the fuel. -/
def rolloutAux : Nat → Node → List Nat → Option (Bool × List Nat)
  | 0, cur, g => if isTerminal cur then some (evaluate cur, g) else none
  | fuel + 1, cur, g =>
    if isTerminal cur then some (evaluate cur, g)
    else
      match unexplored cur with
      | [] => none
      | x :: xs =>
        let (i, g') := rngNext g
        let a := (x :: xs).get ⟨i % (x :: xs).length, Nat.mod_lt _ (Nat.succ_pos _)⟩
        rolloutAux fuel (Node.new 0 a (applyAction cur.state a) none) g'

/-- `simulate` from the source: copy the node's state field by field into
a fresh transient `Node::new` (lines 200-208), run the rollout loop on
that detached copy, and hand the `&mut` node back unchanged together with
the terminal evaluation. -/
def simulate (fuel : Nat) (n : Node) (g : List Nat) :
    Option (Node × Bool × List Nat) :=
  let scopy : GameState :=
    { my_score := n.state.my_score
      op_score := n.state.op_score
      my_possible_actions := n.state.my_possible_actions
      op_possible_actions := n.state.op_possible_actions
      round := n.state.round }
  match rolloutAux fuel (Node.new n.id n.action scopy n.parent_id) g with
  | none => none
  | some (res, g') => some (n, res, g')

/-- One visit/win update of backpropagation: `visits += 1`, and
`wins += 1` iff the outcome favors the tree's perspective. -/
def bump (r : Bool) : Node → Node
  | .mk i v w a s cs p => .mk i (v + 1) (if r then w + 1 else w) a s cs p

/-- Modelled from the spec: the body of `backpropagate` is an unfinished
fragment in the source (a dangling assignment and a call-site arity
mismatch), so the walk is taken from the spec: update `visits` and `wins`
for every ancestor from the originating node up to and including the
root.  The ancestor chain of the node at position `p` is exactly the set
of prefixes of `p`, so the update bumps every node along `p`, root
included. -/
def backpropagate (r : Bool) : Node → List Nat → Node
  | n, [] => bump r n
  | n, i :: p => bump r (n.withChildren (modifyAt (fun c => backpropagate r c p) n.children i))

/-- Modelled from the spec: `is_fully_expanded` is `unimplemented!()` in
the source; per the spec a node is fully expanded iff the number of its
children equals the number of legal actions from its state. -/
def isFullyExpanded (n : Node) : Bool :=
  n.children.length == n.state.my_possible_actions.length

/-- Modelled from the spec: the UCB1 score of a child,
`child.wins / child.visits + C * sqrt(ln(parent.visits) / child.visits)`
(`uct_value` is `unimplemented!()` in the source; the spec's formula is
read over the reals). -/
noncomputable def uct (C : ℝ) (parentVisits : Int) (c : Node) : ℝ :=
  (c.wins : ℝ) / (c.visits : ℝ) +
    C * Real.sqrt (Real.log (parentVisits : ℝ) / (c.visits : ℝ))

/-- First maximizer of `f` over a list, as (index, value): a later element
replaces the incumbent only when its score is strictly greater, so exact
ties keep the earlier element. -/
noncomputable def firstArgmax (f : α → ℝ) : List α → Option (Nat × ℝ)
  | [] => none
  | c :: cs => match firstArgmax f cs with
    | none => some (0, f c)
    | some (j, m) => if m > f c then some (j + 1, m) else some (0, f c)

/-- Modelled from the spec: `best_child` is `unimplemented!()` in the
source; per the spec it descends to the child maximizing the UCB1 score,
breaking exact ties by first in insertion order.  Returns the child's
index; `none` models the panic on a childless node. -/
noncomputable def bestChildIdx (C : ℝ) (n : Node) : Option Nat :=
  (firstArgmax (uct C n.visits) n.children).map (fun r => r.1)

/-- The `select` loop from the source (lines 151-159), totalized by fuel:
while the current node is fully expanded, descend into its best child.
Returns the descent path as child indices. -/
noncomputable def selectPath (C : ℝ) : Nat → Node → Option (List Nat)
  | 0, _ => none
  | fuel + 1, n =>
    if isFullyExpanded n then
      match bestChildIdx C n with
      | none => none
      | some j => match n.children.get? j with
        | none => none
        | some c => (selectPath C fuel c).map (fun p => j :: p)
    else some []

/-- `select` from the source: run the descent loop from the root.  The
size of the tree bounds the depth of any descent, so it serves as fuel. -/
noncomputable def select (C : ℝ) (t : Node) : Option (List Nat) :=
  selectPath C t.size t

/-- The error kind of the move selector. -/
inductive MctsErr where
  | NoMovesAvailable : MctsErr
deriving DecidableEq, Repr

/-- First child with maximal visit count: a later child wins only with a
strictly greater count, so exact ties keep the earlier child. -/
def bestByVisits : List Node → Option Node
  | [] => none
  | c :: cs => match bestByVisits cs with
    | none => some c
    | some b => if b.visits > c.visits then some b else some c

/-- Modelled from the spec: `best_action` is `unimplemented!()` in the
source; per the spec it returns the action of the root child with the
highest visit count (ties broken by first in insertion order) and fails
with `NoMovesAvailable` when the root has no children. -/
def bestAction (t : Node) : Except MctsErr Action :=
  match bestByVisits t.children with
  | none => .error .NoMovesAvailable
  | some c => .ok c.action

/-- One iteration of the `mcts` loop (lines 133-145): select; if the
selected node is terminal, evaluate it, otherwise expand it and simulate
the new child (writing the `&mut` node back); then backpropagate the
outcome from the originating node.  `none` models a panic inside the
iteration. -/
noncomputable def stepM (C : ℝ) (simFuel : Nat) (st : Node × Int × List Nat) :
    Option (Node × Int × List Nat) :=
  match select C st.1 with
  | none => none
  | some p =>
    match nodeAt st.1 p with
    | none => none
    | some sel =>
      if isTerminal sel then
        some (backpropagate (evaluate sel) st.1 p, st.2.1, st.2.2)
      else
        match expandAt st.1 p st.2.1 st.2.2 with
        | none => none
        | some (t', j, cid', g') =>
          match nodeAt t' (p ++ [j]) with
          | none => none
          | some child =>
            match simulate simFuel child g' with
            | none => none
            | some (child2, res, g'') =>
              some (backpropagate res (updateAt t' (p ++ [j]) child2) (p ++ [j]),
                    cid', g'')

/-- The iteration loop `for _ in 0..n_iterations`. -/
noncomputable def runAux (C : ℝ) (simFuel : Nat) :
    Nat → Node × Int × List Nat → Option (Node × Int × List Nat)
  | 0, st => some st
  | k + 1, st => match stepM C simFuel st with
    | none => none
    | some st' => runAux C simFuel k st'

/-- The root built at the start of `mcts` (line 130): id 0, sentinel
action `Heads`, the initial state, no parent. -/
def initRoot (s : GameState) : Node :=
  Node.new 0 Action.Heads s none

/-- `mcts` from the source: build the root, run `n` iterations threading
the id counter and the random stream, then read the move selector. -/
noncomputable def mcts (C : ℝ) (simFuel : Nat) (s : GameState) (n : Nat)
    (g : List Nat) : Option (Except MctsErr Action) :=
  (runAux C simFuel n (initRoot s, 0, g)).map (fun st => bestAction st.1)

/-- `q` is an ancestor position of `p` (a prefix of the index path). -/
def ancestor : List Nat → List Nat → Bool
  | [], _ => true
  | _ :: _, [] => false
  | i :: q, j :: p => i == j && ancestor q p

/-- A position that `nodeAt` can resolve. -/
def ValidPath (t : Node) (p : List Nat) : Prop :=
  (nodeAt t p).isSome = true

/-- The mutable-by-backpropagation fields of a node together with the
shape data the search invariants track: its children's actions. -/
structure Stats where
  visits : Int
  wins : Int
  action : Action
  state : GameState
  childActions : List Action
deriving DecidableEq, Repr

/-- Read a node's stats. -/
def Node.stats (n : Node) : Stats :=
  ⟨n.visits, n.wins, n.action, n.state, n.children.map Node.action⟩

/-- What one backpropagation step does to a node's stats. -/
def statsBump (r : Bool) (st : Stats) : Stats :=
  { st with visits := st.visits + 1, wins := if r then st.wins + 1 else st.wins }

/-- The playout relation realized by the `simulate` loop: from a
non-terminal state, apply one legal action (which advances the round);
stop at a terminal state. -/
inductive RolloutReach : GameState → GameState → Prop where
  | refl (s : GameState) : RolloutReach s s
  | step (s s' : GameState) (a : Action) (ha : a ∈ s.my_possible_actions)
      (hnt : s.round ≠ 10) (h : RolloutReach (applyAction s a) s') :
      RolloutReach s s'

/-- Spec-side reading of the UCB1 child choice, for comparison with
`bestChildIdx`: index `j` denotes the child maximizing the UCB1 score,
with exact ties broken by first in insertion order (all earlier children
score strictly lower). -/
def IsFirstUctMax (C : ℝ) (n : Node) (j : Nat) : Prop :=
  ∃ hj : j < n.children.length,
    (∀ i, ∀ hi : i < n.children.length,
      uct C n.visits (n.children.get ⟨i, hi⟩) ≤ uct C n.visits (n.children.get ⟨j, hj⟩))
    ∧ (∀ i, i < j → ∀ hi : i < n.children.length,
      uct C n.visits (n.children.get ⟨i, hi⟩) < uct C n.visits (n.children.get ⟨j, hj⟩))

/-- The per-node counter invariant of the search tree:
`1 ≤ visits`, `0 ≤ wins` and `wins ≤ visits`. -/
def StatsInv (st : Stats) : Prop :=
  1 ≤ st.visits ∧ 0 ≤ st.wins ∧ st.wins ≤ st.visits

/-- The counter invariant, over every node of a tree. -/
def TreeInv (t : Node) : Prop :=
  ∀ q m, nodeAt t q = some m → StatsInv m.stats

/-- The expansion invariant, over every node of a tree: no two children
carry the same action, and every child's action is legal in the node's
state. -/
def ActInv (t : Node) : Prop :=
  ∀ q m, nodeAt t q = some m →
    (m.children.map Node.action).Nodup ∧
    ∀ a ∈ m.children.map Node.action, a ∈ m.state.my_possible_actions

/-- Sample game state used by concrete witnesses. -/
def wState : GameState :=
  { my_score := 2, op_score := 1,
    my_possible_actions := [.Heads, .Tails],
    op_possible_actions := [.Heads, .Tails], round := 3 }

/-- Sample child node used by concrete witnesses. -/
def wChild : Node :=
  Node.mk 7 1 0 .Heads
    { my_score := 3, op_score := 1,
      my_possible_actions := [.Heads, .Tails],
      op_possible_actions := [.Heads, .Tails], round := 4 } [] (some 6)

/-- Sample expanded node used by concrete witnesses. -/
def wNode : Node := Node.mk 6 4 2 .Heads wState [wChild] none

/-- Sample terminal game state used by concrete witnesses. -/
def wTermState : GameState :=
  { my_score := 4, op_score := 4,
    my_possible_actions := [.Heads, .Tails],
    op_possible_actions := [.Heads, .Tails], round := 10 }

/-! ### Projection lemmas -/

@[simp] theorem Node.id_mk (i v w : Int) (a : Action) (s : GameState)
    (cs : List Node) (p : Option Int) : (Node.mk i v w a s cs p).id = i := rfl

@[simp] theorem Node.visits_mk (i v w : Int) (a : Action) (s : GameState)
    (cs : List Node) (p : Option Int) : (Node.mk i v w a s cs p).visits = v := rfl

@[simp] theorem Node.wins_mk (i v w : Int) (a : Action) (s : GameState)
    (cs : List Node) (p : Option Int) : (Node.mk i v w a s cs p).wins = w := rfl

@[simp] theorem Node.action_mk (i v w : Int) (a : Action) (s : GameState)
    (cs : List Node) (p : Option Int) : (Node.mk i v w a s cs p).action = a := rfl

@[simp] theorem Node.state_mk (i v w : Int) (a : Action) (s : GameState)
    (cs : List Node) (p : Option Int) : (Node.mk i v w a s cs p).state = s := rfl

@[simp] theorem Node.children_mk (i v w : Int) (a : Action) (s : GameState)
    (cs : List Node) (p : Option Int) : (Node.mk i v w a s cs p).children = cs := rfl

@[simp] theorem Node.parent_id_mk (i v w : Int) (a : Action) (s : GameState)
    (cs : List Node) (p : Option Int) : (Node.mk i v w a s cs p).parent_id = p := rfl

@[simp] theorem Node.withChildren_mk (i v w : Int) (a : Action) (s : GameState)
    (cs cs' : List Node) (p : Option Int) :
    (Node.mk i v w a s cs p).withChildren cs' = Node.mk i v w a s cs' p := rfl

theorem Node.eta (n : Node) :
    Node.mk n.id n.visits n.wins n.action n.state n.children n.parent_id = n := by
  cases n; rfl

@[simp] theorem Node.id_withChildren (n : Node) (cs : List Node) :
    (n.withChildren cs).id = n.id := by cases n; rfl

@[simp] theorem Node.visits_withChildren (n : Node) (cs : List Node) :
    (n.withChildren cs).visits = n.visits := by cases n; rfl

@[simp] theorem Node.wins_withChildren (n : Node) (cs : List Node) :
    (n.withChildren cs).wins = n.wins := by cases n; rfl

@[simp] theorem Node.action_withChildren (n : Node) (cs : List Node) :
    (n.withChildren cs).action = n.action := by cases n; rfl

@[simp] theorem Node.state_withChildren (n : Node) (cs : List Node) :
    (n.withChildren cs).state = n.state := by cases n; rfl

@[simp] theorem Node.children_withChildren (n : Node) (cs : List Node) :
    (n.withChildren cs).children = cs := by cases n; rfl

@[simp] theorem Node.parent_id_withChildren (n : Node) (cs : List Node) :
    (n.withChildren cs).parent_id = n.parent_id := by cases n; rfl

@[simp] theorem Node.withChildren_self (n : Node) :
    n.withChildren n.children = n := by cases n; rfl

@[simp] theorem Node.visits_new (i : Int) (a : Action) (s : GameState)
    (p : Option Int) : (Node.new i a s p).visits = 1 := rfl

@[simp] theorem Node.wins_new (i : Int) (a : Action) (s : GameState)
    (p : Option Int) : (Node.new i a s p).wins = 0 := rfl

@[simp] theorem Node.action_new (i : Int) (a : Action) (s : GameState)
    (p : Option Int) : (Node.new i a s p).action = a := rfl

@[simp] theorem Node.state_new (i : Int) (a : Action) (s : GameState)
    (p : Option Int) : (Node.new i a s p).state = s := rfl

@[simp] theorem Node.children_new (i : Int) (a : Action) (s : GameState)
    (p : Option Int) : (Node.new i a s p).children = [] := rfl

@[simp] theorem Node.id_new (i : Int) (a : Action) (s : GameState)
    (p : Option Int) : (Node.new i a s p).id = i := rfl

@[simp] theorem Node.parent_id_new (i : Int) (a : Action) (s : GameState)
    (p : Option Int) : (Node.new i a s p).parent_id = p := rfl

@[simp] theorem bump_visits (r : Bool) (n : Node) :
    (bump r n).visits = n.visits + 1 := by cases n; rfl

@[simp] theorem bump_wins (r : Bool) (n : Node) :
    (bump r n).wins = if r then n.wins + 1 else n.wins := by cases n; rfl

@[simp] theorem bump_action (r : Bool) (n : Node) :
    (bump r n).action = n.action := by cases n; rfl

@[simp] theorem bump_state (r : Bool) (n : Node) :
    (bump r n).state = n.state := by cases n; rfl

@[simp] theorem bump_children (r : Bool) (n : Node) :
    (bump r n).children = n.children := by cases n; rfl

@[simp] theorem stats_bump (r : Bool) (n : Node) :
    (bump r n).stats = statsBump r n.stats := by
  cases n; simp [Node.stats, statsBump]

/-! ### `modifyAt` lemmas -/

@[simp] theorem modifyAt_nil (f : α → α) (i : Nat) : modifyAt f [] i = [] := rfl

@[simp] theorem length_modifyAt (f : α → α) (l : List α) (i : Nat) :
    (modifyAt f l i).length = l.length := by
  induction l generalizing i with
  | nil => rfl
  | cons x xs ih =>
    cases i with
    | zero => rfl
    | succ j => simp [modifyAt, ih]

theorem get?_modifyAt (f : α → α) (l : List α) (i k : Nat) :
    (modifyAt f l i).get? k = if k = i then (l.get? k).map f else l.get? k := by
  induction l generalizing i k with
  | nil => simp
  | cons x xs ih =>
    cases i with
    | zero =>
      cases k with
      | zero => simp [modifyAt]
      | succ k' => simp [modifyAt]
    | succ j =>
      cases k with
      | zero => simp [modifyAt]
      | succ k' => simpa [modifyAt] using ih j k'

theorem modifyAt_eq_self (f : α → α) (l : List α) (i : Nat)
    (h : ∀ x, l.get? i = some x → f x = x) : modifyAt f l i = l := by
  induction l generalizing i with
  | nil => rfl
  | cons x xs ih =>
    cases i with
    | zero => simp [modifyAt, h x rfl]
    | succ j =>
      simp only [modifyAt, List.cons.injEq, true_and]
      exact ih j (fun y hy => h y hy)

/-! ### `ancestor` lemmas -/

@[simp] theorem ancestor_nil (p : List Nat) : ancestor [] p = true := by
  cases p <;> rfl

@[simp] theorem ancestor_cons_nil (i : Nat) (q : List Nat) :
    ancestor (i :: q) [] = false := rfl

@[simp] theorem ancestor_cons_cons (i j : Nat) (q p : List Nat) :
    ancestor (i :: q) (j :: p) = ((i == j) && ancestor q p) := rfl

/-! ### `nodeAt` lemmas -/

@[simp] theorem nodeAt_nil (n : Node) : nodeAt n [] = some n := rfl

theorem nodeAt_cons (n : Node) (i : Nat) (p : List Nat) :
    nodeAt n (i :: p) = (n.children.get? i).bind (fun c => nodeAt c p) := by
  cases h : n.children.get? i <;> simp only [nodeAt, h] <;> rfl

theorem nodeAt_append (n : Node) (p q : List Nat) :
    nodeAt n (p ++ q) = (nodeAt n p).bind (fun m => nodeAt m q) := by
  induction p generalizing n with
  | nil => simp
  | cons i p' ih =>
    simp only [List.cons_append, nodeAt_cons]
    cases n.children.get? i with
    | none => rfl
    | some c => simp [ih]

/-! ### Backpropagation characterization -/

theorem backpropagate_action (r : Bool) (n : Node) (p : List Nat) :
    (backpropagate r n p).action = n.action := by
  cases p <;> simp [backpropagate]

theorem map_modifyAt (f : α → α) (g : α → β) (l : List α) (i : Nat)
    (h : ∀ x, g (f x) = g x) : (modifyAt f l i).map g = l.map g := by
  induction l generalizing i with
  | nil => rfl
  | cons x xs ih =>
    cases i with
    | zero => simp [modifyAt, h]
    | succ j => simp [modifyAt, ih]

/-- Master characterization of the backpropagation walk: a node at an
ancestor position of the originating node (the root included, via the
empty position) has its visits incremented by 1 and its wins incremented
by 1 iff the outcome favors the tree's perspective, while its action,
state and children's actions are untouched; the subtree at any other
position is entirely unchanged. -/
theorem nodeAt_backpropagate (r : Bool) (t : Node) (p q : List Nat) :
    (ancestor q p = true →
      (nodeAt (backpropagate r t p) q).map Node.stats
        = (nodeAt t q).map (fun m => statsBump r m.stats))
    ∧ (ancestor q p = false →
      nodeAt (backpropagate r t p) q = nodeAt t q) := by
  induction p generalizing t q with
  | nil =>
    constructor
    · intro hq
      cases q with
      | nil => simp [backpropagate]
      | cons j q' => simp at hq
    · intro hq
      cases q with
      | nil => simp at hq
      | cons j q' =>
        simp [backpropagate, nodeAt_cons]
  | cons i p' ih =>
    constructor
    · intro hq
      cases q with
      | nil =>
        have hst : (t.withChildren
            (modifyAt (fun c => backpropagate r c p') t.children i)).stats = t.stats := by
          simp [Node.stats, map_modifyAt _ _ _ _ (fun c => backpropagate_action r c p')]
        simp [backpropagate, stats_bump, hst]
      | cons j q' =>
        simp only [ancestor_cons_cons, Bool.and_eq_true, beq_iff_eq] at hq
        obtain ⟨rfl, hq'⟩ := hq
        simp only [backpropagate, nodeAt_cons, bump_children, Node.children_withChildren]
        rw [get?_modifyAt]
        simp only [if_pos rfl]
        cases hc : t.children.get? j with
        | none => simp
        | some c =>
          show (nodeAt (backpropagate r c p') q').map Node.stats
            = (nodeAt c q').map (fun m => statsBump r m.stats)
          exact (ih c q').1 hq'
    · intro hq
      cases q with
      | nil => simp at hq
      | cons j q' =>
        simp only [backpropagate, nodeAt_cons, bump_children, Node.children_withChildren]
        rw [get?_modifyAt]
        by_cases hji : j = i
        · subst hji
          simp only [ancestor_cons_cons, beq_self_eq_true, Bool.true_and] at hq
          simp only [if_pos rfl]
          cases hc : t.children.get? j with
          | none => simp
          | some c =>
            show nodeAt (backpropagate r c p') q' = nodeAt c q'
            exact (ih c q').2 hq
        · rw [if_neg hji]

/-! ### Expansion characterization -/

theorem expandNode_of_unexplored_nil (n : Node) (cid : Int) (g : List Nat)
    (h : unexplored n = []) : expandNode n cid g = none := by
  unfold expandNode
  rw [h]

theorem expandNode_of_unexplored_cons (n : Node) (cid : Int) (g : List Nat)
    (x : Action) (xs : List Action) (h : unexplored n = x :: xs) :
    expandNode n cid g = some
      (n.withChildren (n.children ++
        [Node.new (cid + 1)
          ((x :: xs).get ⟨(g.headD 0) % (x :: xs).length, Nat.mod_lt _ (Nat.succ_pos _)⟩)
          (applyAction n.state
            ((x :: xs).get ⟨(g.headD 0) % (x :: xs).length, Nat.mod_lt _ (Nat.succ_pos _)⟩))
          (some cid)]),
       cid + 1, g.tail) := by
  unfold expandNode
  rw [h]
  rfl

theorem map_modifyAt_of_get? (f : α → α) (g : α → β) (l : List α) (i : Nat)
    (x : α) (hx : l.get? i = some x) (h : g (f x) = g x) :
    (modifyAt f l i).map g = l.map g := by
  induction l generalizing i with
  | nil => rfl
  | cons y ys ih =>
    cases i with
    | zero =>
      simp only [List.get?] at hx
      cases hx
      simp [modifyAt, h]
    | succ j =>
      simp only [List.get?] at hx
      simp [modifyAt, ih j hx]

theorem mem_unexplored (n : Node) (a : Action) :
    a ∈ unexplored n ↔ a ∈ n.state.my_possible_actions ∧ n.contains a = false := by
  simp [unexplored, List.mem_filter]

theorem contains_false_iff (n : Node) (a : Action) :
    n.contains a = false ↔ a ∉ n.children.map Node.action := by
  simp only [Node.contains, List.any_eq_false, beq_iff_eq, List.mem_map]
  constructor
  · rintro h ⟨c, hc, rfl⟩
    exact h c hc rfl
  · intro h c hc he
    exact h ⟨c, hc, he⟩

theorem expandAt_cons (t : Node) (i : Nat) (p' : List Nat) (cid : Int)
    (g : List Nat) :
    expandAt t (i :: p') cid g = (t.children.get? i).bind
      (fun c => (expandAt c p' cid g).map
        (fun r => (t.withChildren (modifyAt (fun _ => r.1) t.children i),
                   r.2.1, r.2.2.1, r.2.2.2))) := by
  cases h : t.children.get? i <;> simp only [expandAt, h] <;> rfl

/-- Master characterization of `expand` applied at a position `p`: the
target node exists and gets exactly one new child appended, carrying an
untried action, the successor state and counters `visits = 1`, `wins = 0`;
the new child sits at index `j` (the old child count) under the target;
every other node of the new tree is a node of the old tree with unchanged
stats. -/
theorem nodeAt_expandAt (t : Node) (p : List Nat) (cid : Int) (g : List Nat)
    (t' : Node) (j : Nat) (cid' : Int) (g' : List Nat)
    (h : expandAt t p cid g = some (t', j, cid', g')) :
    cid' = cid + 1 ∧ g' = g.tail ∧
    ∃ m a, nodeAt t p = some m ∧ a ∈ unexplored m ∧ j = m.children.length ∧
      nodeAt t' (p ++ [j]) = some (Node.new (cid + 1) a (applyAction m.state a) (some cid)) ∧
      nodeAt t' p = some (m.withChildren (m.children ++
        [Node.new (cid + 1) a (applyAction m.state a) (some cid)])) ∧
      (∀ q m', nodeAt t' q = some m' →
        (q = p ++ [j] ∧
          m' = Node.new (cid + 1) a (applyAction m.state a) (some cid))
        ∨ (q = p ∧ m' = m.withChildren (m.children ++
            [Node.new (cid + 1) a (applyAction m.state a) (some cid)]))
        ∨ (q ≠ p ∧ q ≠ p ++ [j] ∧
            ∃ m₀, nodeAt t q = some m₀ ∧ m'.stats = m₀.stats)) := by
  induction p generalizing t t' j cid' g' with
  | nil =>
    simp only [expandAt] at h
    cases hu : unexplored t with
    | nil => rw [expandNode_of_unexplored_nil t cid g hu] at h; simp at h
    | cons x xs =>
      rw [expandNode_of_unexplored_cons t cid g x xs hu] at h
      simp only [Option.map_some', Option.some.injEq, Prod.mk.injEq] at h
      obtain ⟨ht', hj, hcid, hg⟩ := h
      set a₀ := (x :: xs).get
        ⟨(g.headD 0) % (x :: xs).length, Nat.mod_lt _ (Nat.succ_pos _)⟩ with ha₀
      set child := Node.new (cid + 1) a₀ (applyAction t.state a₀) (some cid) with hchild
      refine ⟨hcid.symm, hg.symm, t, a₀, rfl, ?_, hj.symm, ?_, ?_, ?_⟩
      · rw [hu]; exact List.get_mem _ _ _
      · subst ht' hj
        simp only [List.nil_append, nodeAt_cons, Node.children_withChildren]
        rw [List.get?_concat_length]
        rfl
      · subst ht' hj
        rfl
      · intro q m' hm'
        subst ht' hj
        cases q with
        | nil =>
          simp only [nodeAt_nil, Option.some.injEq] at hm'
          exact Or.inr (Or.inl ⟨rfl, hm'.symm⟩)
        | cons k q' =>
          simp only [nodeAt_cons, Node.children_withChildren] at hm'
          rcases Nat.lt_trichotomy k t.children.length with hk | hk | hk
          · rw [List.get?_append hk] at hm'
            refine Or.inr (Or.inr ⟨by simp, ?_, m', ?_, rfl⟩)
            · intro hq
              cases hq
              exact Nat.lt_irrefl _ hk
            · rw [nodeAt_cons]
              exact hm'
          · subst hk
            rw [List.get?_concat_length] at hm'
            cases q' with
            | nil =>
              simp only [nodeAt_nil, Option.bind_some, Option.some.injEq] at hm'
              exact Or.inl ⟨by simp, hm'.symm⟩
            | cons l q'' =>
              simp only [Option.bind_some, nodeAt_cons, hchild] at hm'
              simp [Node.new] at hm'
          · rw [List.get?_eq_none.mpr (by simp; omega)] at hm'
            simp at hm'
  | cons i p' ih =>
    rw [expandAt_cons] at h
    cases hc : t.children.get? i with
    | none => rw [hc] at h; simp at h
    | some c =>
      rw [hc] at h
      simp only [Option.some_bind] at h
      cases he : expandAt c p' cid g with
      | none => rw [he] at h; simp at h
      | some r =>
        rw [he] at h
        obtain ⟨c', j₀, cid₀, g₀⟩ := r
        simp only [Option.map_some', Option.some.injEq, Prod.mk.injEq] at h
        obtain ⟨ht', hj, hcid, hg⟩ := h
        subst ht' hj hcid hg
        obtain ⟨hcid', hg', m, a, hm, ha, hjlen, hnew, hpar, hall⟩ :=
          ih c c' j₀ cid₀ g₀ he
        refine ⟨hcid', hg', m, a, ?_, ha, hjlen, ?_, ?_, ?_⟩
        · rw [nodeAt_cons, hc]
          exact hm
        · simp only [List.cons_append, nodeAt_cons, Node.children_withChildren]
          rw [get?_modifyAt, if_pos rfl, hc]
          show nodeAt c' (p' ++ [j₀]) = _
          exact hnew
        · simp only [nodeAt_cons, Node.children_withChildren]
          rw [get?_modifyAt, if_pos rfl, hc]
          show nodeAt c' p' = _
          exact hpar
        · intro q m' hm'
          cases q with
          | nil =>
            simp only [nodeAt_nil, Option.some.injEq] at hm'
            subst hm'
            refine Or.inr (Or.inr ⟨by simp, by simp, t, rfl, ?_⟩)
            have hact : c'.action = c.action := by
              rcases hall [] c' rfl with ⟨habs, _⟩ | ⟨hp', hc'⟩ | ⟨_, _, m₀, hm₀, hst⟩
              · exact absurd habs (by simp)
              · subst hp'
                simp only [nodeAt_nil, Option.some.injEq] at hm
                subst hm
                rw [hc']
                simp
              · simp only [nodeAt_nil, Option.some.injEq] at hm₀
                subst hm₀
                have := congrArg Stats.action hst
                simpa [Node.stats] using this
            simp only [Node.stats, Node.visits_withChildren, Node.wins_withChildren,
              Node.action_withChildren, Node.state_withChildren, Node.children_withChildren]
            rw [map_modifyAt_of_get? _ _ _ _ c hc (by rw [hact])]
          | cons k q' =>
            simp only [nodeAt_cons, Node.children_withChildren] at hm'
            by_cases hki : k = i
            · subst hki
              rw [get?_modifyAt, if_pos rfl, hc] at hm'
              have hm'' : nodeAt c' q' = some m' := hm'
              rcases hall q' m' hm'' with ⟨hq', hm'new⟩ | ⟨hq', hm'par⟩ |
                ⟨hq1, hq2, m₀, hm₀, hst⟩
              · exact Or.inl ⟨by rw [hq']; rfl, hm'new⟩
              · exact Or.inr (Or.inl ⟨by rw [hq'], hm'par⟩)
              · refine Or.inr (Or.inr ⟨by simp [hq1], by simp [hq2], m₀, ?_, hst⟩)
                rw [nodeAt_cons, hc]
                exact hm₀
            · rw [get?_modifyAt, if_neg hki] at hm'
              refine Or.inr (Or.inr ⟨by simp [hki], ?_, m', ?_, rfl⟩)
              · intro hq
                rw [List.cons_append] at hq
                cases hq
                exact hki rfl
              · rw [nodeAt_cons]
                exact hm'

/-! ### Size lemmas -/

theorem Node.size_mk (i v w : Int) (a : Action) (s : GameState)
    (cs : List Node) (p : Option Int) :
    Node.size (.mk i v w a s cs p) = 1 + (cs.map Node.size).sum := by
  have h : ∀ l : List Node,
      (Node.rec_1 (motive_1 := fun _ => Nat) (motive_2 := fun _ => Nat)
        (fun _ _ _ _ _ _ _ ih => 1 + ih) 0 (fun _ _ ih1 ih2 => ih1 + ih2) l : Nat)
      = (l.map Node.size).sum := by
    intro l
    induction l with
    | nil => rfl
    | cons hd tl ih =>
      simp only [List.map, List.sum_cons, ← ih]
      rfl
  show 1 + _ = _
  rw [h]

theorem Node.size_pos (n : Node) : 1 ≤ n.size := by
  cases n
  rw [Node.size_mk]
  omega

theorem Node.size_lt_of_mem (n : Node) (c : Node) (hc : c ∈ n.children) :
    c.size < n.size := by
  cases n with
  | mk i v w a s cs p =>
    rw [Node.size_mk]
    simp only [Node.children_mk] at hc
    have h1 : c.size ≤ (cs.map Node.size).sum :=
      List.le_sum_of_mem (List.mem_map_of_mem _ hc)
    omega

theorem Node.size_lt_of_get? (n : Node) (k : Nat) (c : Node)
    (hc : n.children.get? k = some c) : c.size < n.size :=
  n.size_lt_of_mem c (List.get?_mem hc)

/-! ### Selection characterization -/

theorem firstArgmax_eq_none_iff (f : α → ℝ) (l : List α) :
    firstArgmax f l = none ↔ l = [] := by
  cases l with
  | nil => simp [firstArgmax]
  | cons c cs =>
    simp only [firstArgmax]
    cases firstArgmax f cs with
    | none => simp
    | some r =>
      obtain ⟨j, m⟩ := r
      by_cases h : m > f c <;> simp [h]

theorem firstArgmax_spec (f : α → ℝ) (l : List α) (j : Nat) (v : ℝ)
    (h : firstArgmax f l = some (j, v)) :
    ∃ hj : j < l.length, v = f (l.get ⟨j, hj⟩) ∧
      (∀ i, ∀ hi : i < l.length, f (l.get ⟨i, hi⟩) ≤ v) ∧
      (∀ i, i < j → ∀ hi : i < l.length, f (l.get ⟨i, hi⟩) < v) := by
  induction l generalizing j v with
  | nil => simp [firstArgmax] at h
  | cons c cs ih =>
    simp only [firstArgmax] at h
    cases hrec : firstArgmax f cs with
    | none =>
      rw [hrec] at h
      have h' : some (0, f c) = some (j, v) := h
      simp only [Option.some.injEq, Prod.mk.injEq] at h'
      obtain ⟨rfl, rfl⟩ := h'
      have hnil : cs = [] := (firstArgmax_eq_none_iff f cs).mp hrec
      subst hnil
      refine ⟨by simp, rfl, ?_, ?_⟩
      · intro i hi
        simp only [List.length_cons, List.length_nil] at hi
        have h0 : i = 0 := by omega
        subst h0
        simp
      · intro i hi
        omega
    | some r =>
      rw [hrec] at h
      obtain ⟨j', m⟩ := r
      have h' : (if m > f c then some (j' + 1, m) else some (0, f c))
          = some (j, v) := h
      obtain ⟨hj', hm, hmax, hstrict⟩ := ih j' m hrec
      by_cases hgt : m > f c
      · rw [if_pos hgt] at h'
        simp only [Option.some.injEq, Prod.mk.injEq] at h'
        obtain ⟨hj, hv⟩ := h'
        subst hj hv
        refine ⟨by simpa using Nat.succ_lt_succ hj', by simpa using hm, ?_, ?_⟩
        · intro i hi
          cases i with
          | zero => exact le_of_lt hgt
          | succ i' => exact hmax i' (by simpa using hi)
        · intro i hij hi
          cases i with
          | zero => exact hgt
          | succ i' => exact hstrict i' (by omega) (by simpa using hi)
      · rw [if_neg hgt] at h'
        simp only [Option.some.injEq, Prod.mk.injEq] at h'
        obtain ⟨hj, hv⟩ := h'
        subst hj hv
        refine ⟨by simp, rfl, ?_, ?_⟩
        · intro i hi
          cases i with
          | zero => exact le_refl _
          | succ i' =>
            exact le_trans (hmax i' (by simpa using hi)) (not_lt.mp hgt)
        · intro i hij hi
          omega

theorem bestChildIdx_lt (C : ℝ) (n : Node) (j : Nat)
    (h : bestChildIdx C n = some j) : j < n.children.length := by
  simp only [bestChildIdx, Option.map_eq_some'] at h
  obtain ⟨⟨j', v⟩, hfa, hj⟩ := h
  cases hj
  exact (firstArgmax_spec _ _ _ _ hfa).fst

theorem bestChildIdx_isSome (C : ℝ) (n : Node) (hne : n.children ≠ []) :
    (bestChildIdx C n).isSome = true := by
  simp only [bestChildIdx, Option.isSome_map']
  cases hfa : firstArgmax (uct C n.visits) n.children with
  | none => exact absurd ((firstArgmax_eq_none_iff _ _).mp hfa) hne
  | some r => rfl

theorem selectPath_of_not_fe (C : ℝ) (fuel : Nat) (n : Node)
    (h : isFullyExpanded n = false) :
    selectPath C (fuel + 1) n = some [] := by
  simp [selectPath, h]

/-- Endpoint-and-steps characterization of the selection loop: a
successful descent reaches a node that is not fully expanded, and every
intermediate step leaves a fully-expanded node through the index chosen
by `bestChildIdx`. -/
theorem selectPath_spec (C : ℝ) (fuel : Nat) (n : Node) (p : List Nat)
    (h : selectPath C fuel n = some p) :
    (∃ m, nodeAt n p = some m ∧ isFullyExpanded m = false) ∧
    (∀ q k r, p = q ++ k :: r →
      ∃ mq, nodeAt n q = some mq ∧ isFullyExpanded mq = true ∧
        bestChildIdx C mq = some k) := by
  induction fuel generalizing n p with
  | zero => simp [selectPath] at h
  | succ fuel ih =>
    by_cases hfe : isFullyExpanded n
    · rw [selectPath, if_pos hfe] at h
      cases hbc : bestChildIdx C n with
      | none => rw [hbc] at h; simp at h
      | some j =>
        rw [hbc] at h
        have h' : (match n.children.get? j with
            | none => none
            | some c => Option.map (fun p => j :: p) (selectPath C fuel c))
            = some p := h
        cases hgc : n.children.get? j with
        | none => rw [hgc] at h'; simp at h'
        | some c =>
          rw [hgc] at h'
          simp only [Option.map_eq_some'] at h'
          obtain ⟨p', hp', hp⟩ := h'
          subst hp
          obtain ⟨⟨m, hm, hmf⟩, hsteps⟩ := ih c p' hp'
          constructor
          · exact ⟨m, by rw [nodeAt_cons, hgc]; exact hm, hmf⟩
          · intro q k r hqkr
            cases q with
            | nil =>
              simp only [List.nil_append, List.cons.injEq] at hqkr
              obtain ⟨rfl, _⟩ := hqkr
              exact ⟨n, rfl, hfe, hbc⟩
            | cons q0 q' =>
              simp only [List.cons_append, List.cons.injEq] at hqkr
              obtain ⟨rfl, hqkr'⟩ := hqkr
              obtain ⟨mq, hmq, hmqf, hmqb⟩ := hsteps q' k r hqkr'
              exact ⟨mq, by rw [nodeAt_cons, hgc]; exact hmq, hmqf, hmqb⟩
    · rw [selectPath, if_neg hfe] at h
      simp only [Option.some.injEq] at h
      subst h
      refine ⟨⟨n, rfl, by simpa using hfe⟩, ?_⟩
      intro q k r hqkr
      exact absurd hqkr (by simp)

/-! ### Move selector characterization -/

theorem bestByVisits_eq_none_iff (l : List Node) :
    bestByVisits l = none ↔ l = [] := by
  cases l with
  | nil => simp [bestByVisits]
  | cons c cs =>
    simp only [bestByVisits]
    cases bestByVisits cs with
    | none => simp
    | some b => by_cases h : b.visits > c.visits <;> simp [h]

theorem bestByVisits_spec (l : List Node) (b : Node)
    (h : bestByVisits l = some b) :
    ∃ j, ∃ hj : j < l.length, b = l.get ⟨j, hj⟩ ∧
      (∀ i, ∀ hi : i < l.length, (l.get ⟨i, hi⟩).visits ≤ b.visits) ∧
      (∀ i, i < j → ∀ hi : i < l.length, (l.get ⟨i, hi⟩).visits < b.visits) := by
  induction l generalizing b with
  | nil => simp [bestByVisits] at h
  | cons c cs ih =>
    simp only [bestByVisits] at h
    cases hrec : bestByVisits cs with
    | none =>
      rw [hrec] at h
      have h' : some c = some b := h
      simp only [Option.some.injEq] at h'
      subst h'
      have hnil : cs = [] := (bestByVisits_eq_none_iff cs).mp hrec
      subst hnil
      refine ⟨0, by simp, rfl, ?_, ?_⟩
      · intro i hi
        simp only [List.length_cons, List.length_nil] at hi
        have h0 : i = 0 := by omega
        subst h0
        simp
      · intro i hi
        omega
    | some b0 =>
      rw [hrec] at h
      have h' : (if b0.visits > c.visits then some b0 else some c) = some b := h
      obtain ⟨j', hj', hb0, hmax, hstrict⟩ := ih b0 hrec
      by_cases hgt : b0.visits > c.visits
      · rw [if_pos hgt] at h'
        simp only [Option.some.injEq] at h'
        subst h'
        refine ⟨j' + 1, by simpa using Nat.succ_lt_succ hj', by simpa using hb0, ?_, ?_⟩
        · intro i hi
          cases i with
          | zero => exact le_of_lt hgt
          | succ i' => exact hmax i' (by simpa using hi)
        · intro i hij hi
          cases i with
          | zero => exact hgt
          | succ i' => exact hstrict i' (by omega) (by simpa using hi)
      · rw [if_neg hgt] at h'
        simp only [Option.some.injEq] at h'
        subst h'
        refine ⟨0, by simp, rfl, ?_, ?_⟩
        · intro i hi
          cases i with
          | zero => exact le_refl _
          | succ i' =>
            exact le_trans (hmax i' (by simpa using hi)) (not_lt.mp hgt)
        · intro i hij hi
          omega

/-! ### Rollout characterization -/

theorem rolloutAux_step (fuel : Nat) (cur : Node) (g : List Nat)
    (hnt : isTerminal cur = false) (x : Action) (xs : List Action)
    (hu : unexplored cur = x :: xs) :
    rolloutAux (fuel + 1) cur g = rolloutAux fuel
      (Node.new 0
        ((x :: xs).get ⟨(g.headD 0) % (x :: xs).length, Nat.mod_lt _ (Nat.succ_pos _)⟩)
        (applyAction cur.state
          ((x :: xs).get ⟨(g.headD 0) % (x :: xs).length, Nat.mod_lt _ (Nat.succ_pos _)⟩))
        none) g.tail := by
  conv_lhs => rw [rolloutAux]
  rw [if_neg (by simp [hnt]), hu]
  rfl

theorem rolloutAux_of_terminal (fuel : Nat) (cur : Node) (g : List Nat)
    (h : isTerminal cur = true) :
    rolloutAux fuel cur g = some (evaluate cur, g) := by
  cases fuel <;> simp [rolloutAux, h]

theorem unexplored_of_no_children (n : Node) (h : n.children = []) :
    unexplored n = n.state.my_possible_actions := by
  have hc : ∀ a, n.contains a = false := by
    intro a
    simp [Node.contains, h]
  simp [unexplored, hc]

/-- Termination and value of the rollout loop: starting from a childless
transient node whose round is at most 10 and whose action list is
non-empty, with fuel at least the number of missing rounds, the loop
reaches a state with `round = 10` through legal actions and returns its
evaluation. -/
theorem rolloutAux_terminates (fuel : Nat) (cur : Node) (g : List Nat)
    (hch : cur.children = []) (hle : cur.state.round ≤ 10)
    (hne : cur.state.my_possible_actions ≠ [])
    (hfuel : (10 - cur.state.round).toNat ≤ fuel) :
    ∃ s' g', RolloutReach cur.state s' ∧ s'.round = 10 ∧
      rolloutAux fuel cur g = some (decide (s'.my_score > s'.op_score), g') := by
  induction fuel generalizing cur g with
  | zero =>
    have h10 : cur.state.round = 10 := by omega
    refine ⟨cur.state, g, .refl _, h10, ?_⟩
    rw [rolloutAux_of_terminal _ _ _ (by simp [isTerminal, h10])]
    simp [evaluate]
  | succ fuel ih =>
    by_cases hterm : cur.state.round = 10
    · refine ⟨cur.state, g, .refl _, hterm, ?_⟩
      rw [rolloutAux_of_terminal _ _ _ (by simp [isTerminal, hterm])]
      simp [evaluate]
    · have hnt : isTerminal cur = false := by simp [isTerminal, hterm]
      have hunex : unexplored cur = cur.state.my_possible_actions :=
        unexplored_of_no_children cur hch
      cases hl : cur.state.my_possible_actions with
      | nil => exact absurd hl hne
      | cons x xs =>
        rw [hl] at hunex
        set a := (x :: xs).get
          ⟨(g.headD 0) % (x :: xs).length, Nat.mod_lt _ (Nat.succ_pos _)⟩ with ha
        have ham : a ∈ cur.state.my_possible_actions := by
          rw [hl]
          exact List.get_mem _ _ _
        set next := Node.new 0 a (applyAction cur.state a) none with hnext
        have hrw := rolloutAux_step fuel cur g hnt x xs hunex
        have hch' : next.children = [] := by simp [hnext]
        have hle' : next.state.round ≤ 10 := by
          simp [hnext, applyAction]
          omega
        have hne' : next.state.my_possible_actions ≠ [] := by
          simp [hnext, applyAction, hl]
        have hfuel' : (10 - next.state.round).toNat ≤ fuel := by
          simp only [hnext, Node.state_new, applyAction]
          omega
        obtain ⟨s', g', hreach, h10, hrun⟩ := ih next g.tail hch' hle' hne' hfuel'
        refine ⟨s', g', ?_, h10, ?_⟩
        · refine RolloutReach.step cur.state s' a ham hterm ?_
          simpa [hnext] using hreach
        · rw [hrw, ← ha, ← hnext]
          exact hrun

theorem updateAt_self (t : Node) (p : List Nat) (m : Node)
    (h : nodeAt t p = some m) : updateAt t p m = t := by
  induction p generalizing t with
  | nil =>
    simp only [nodeAt_nil, Option.some.injEq] at h
    rw [updateAt, h]
  | cons i p' ih =>
    rw [nodeAt_cons] at h
    cases hc : t.children.get? i with
    | none => rw [hc] at h; simp at h
    | some c =>
      rw [hc] at h
      simp only [Option.some_bind] at h
      rw [updateAt, modifyAt_eq_self]
      · exact t.withChildren_self
      · intro x hx
        rw [hc] at hx
        cases hx
        exact ih c h

theorem simulate_node_eq (fuel : Nat) (n : Node) (g : List Nat)
    (out : Node × Bool × List Nat) (h : simulate fuel n g = some out) :
    out.1 = n := by
  have h2 : (match rolloutAux fuel (Node.new n.id n.action n.state n.parent_id) g with
    | none => none
    | some (res, g') => some (n, res, g')) = some out := h
  cases hr : rolloutAux fuel (Node.new n.id n.action n.state n.parent_id) g with
  | none => rw [hr] at h2; simp at h2
  | some r =>
    rw [hr] at h2
    obtain ⟨res, g'⟩ := r
    simp only [Option.some.injEq] at h2
    rw [← h2]

/-- One iteration either evaluates a terminal selected node and
backpropagates from it, or expands the selected node and backpropagates
from the new child; in both cases the tree that backpropagation updates
is exactly the tree left by the earlier phases (the simulation phase
returns the expanded child unchanged, so the write-back is the
identity). -/
theorem stepM_cases (C : ℝ) (simFuel : Nat) (st st' : Node × Int × List Nat)
    (h : stepM C simFuel st = some st') :
    ∃ p sel, select C st.1 = some p ∧ nodeAt st.1 p = some sel ∧
      ((isTerminal sel = true ∧
        st' = (backpropagate (evaluate sel) st.1 p, st.2.1, st.2.2))
       ∨ (isTerminal sel = false ∧ ∃ t' j cid' g' res g'',
            expandAt st.1 p st.2.1 st.2.2 = some (t', j, cid', g') ∧
            st' = (backpropagate res t' (p ++ [j]), cid', g''))) := by
  unfold stepM at h
  cases hsel : select C st.1 with
  | none => rw [hsel] at h; simp at h
  | some p =>
    rw [hsel] at h
    have h1 : (match nodeAt st.1 p with
      | none => none
      | some sel =>
        if isTerminal sel = true then
          some (backpropagate (evaluate sel) st.1 p, st.2.1, st.2.2)
        else
          match expandAt st.1 p st.2.1 st.2.2 with
          | none => none
          | some (t', j, cid', g') =>
            match nodeAt t' (p ++ [j]) with
            | none => none
            | some child =>
              match simulate simFuel child g' with
              | none => none
              | some (child2, res, g'') =>
                some (backpropagate res (updateAt t' (p ++ [j]) child2) (p ++ [j]),
                      cid', g'')) = some st' := h
    clear h
    cases hnode : nodeAt st.1 p with
    | none => rw [hnode] at h1; simp at h1
    | some sel =>
      rw [hnode] at h1
      have h1' : (if isTerminal sel = true then
          some (backpropagate (evaluate sel) st.1 p, st.2.1, st.2.2)
        else
          match expandAt st.1 p st.2.1 st.2.2 with
          | none => none
          | some (t', j, cid', g') =>
            match nodeAt t' (p ++ [j]) with
            | none => none
            | some child =>
              match simulate simFuel child g' with
              | none => none
              | some (child2, res, g'') =>
                some (backpropagate res (updateAt t' (p ++ [j]) child2) (p ++ [j]),
                      cid', g'')) = some st' := h1
      clear h1
      by_cases hterm : isTerminal sel
      · rw [if_pos (by simp [hterm])] at h1'
        simp only [Option.some.injEq] at h1'
        exact ⟨p, sel, rfl, hnode, Or.inl ⟨hterm, h1'.symm⟩⟩
      · rw [if_neg (by simpa using hterm)] at h1'
        cases hexp : expandAt st.1 p st.2.1 st.2.2 with
        | none => rw [hexp] at h1'; simp at h1'
        | some r =>
          rw [hexp] at h1'
          obtain ⟨t', j, cid', g'⟩ := r
          have h2 : (match nodeAt t' (p ++ [j]) with
            | none => none
            | some child =>
              match simulate simFuel child g' with
              | none => none
              | some (child2, res, g'') =>
                some (backpropagate res (updateAt t' (p ++ [j]) child2) (p ++ [j]),
                      cid', g'')) = some st' := h1'
          cases hchild : nodeAt t' (p ++ [j]) with
          | none => rw [hchild] at h2; simp at h2
          | some child =>
            rw [hchild] at h2
            have h3 : (match simulate simFuel child g' with
              | none => none
              | some (child2, res, g'') =>
                some (backpropagate res (updateAt t' (p ++ [j]) child2) (p ++ [j]),
                      cid', g'')) = some st' := h2
            clear h2
            cases hsim : simulate simFuel child g' with
            | none => rw [hsim] at h3; simp at h3
            | some out =>
              rw [hsim] at h3
              obtain ⟨child2, res, g''⟩ := out
              simp only [Option.some.injEq] at h3
              have hc2 : child2 = child := simulate_node_eq simFuel child g' _ hsim
              subst hc2
              rw [updateAt_self t' (p ++ [j]) child2 hchild] at h3
              exact ⟨p, sel, rfl, hnode, Or.inr ⟨by simpa using hterm,
                t', j, cid', g', res, g'', hexp, h3.symm⟩⟩

theorem StatsInv_bump (r : Bool) (st : Stats) (h : StatsInv st) :
    StatsInv (statsBump r st) := by
  obtain ⟨h1, h2, h3⟩ := h
  cases r <;> exact ⟨by simp [statsBump]; omega, by simp [statsBump]; omega,
    by simp [statsBump]; omega⟩

theorem TreeInv_backpropagate (r : Bool) (t : Node) (p : List Nat)
    (h : TreeInv t) : TreeInv (backpropagate r t p) := by
  intro q m hm
  obtain ⟨hyes, hno⟩ := nodeAt_backpropagate r t p q
  cases hanc : ancestor q p with
  | true =>
    have h1 := hyes hanc
    rw [hm] at h1
    cases hn : nodeAt t q with
    | none => rw [hn] at h1; simp at h1
    | some m₀ =>
      rw [hn] at h1
      simp only [Option.map_some', Option.some.injEq] at h1
      rw [h1]
      exact StatsInv_bump r m₀.stats (h q m₀ hn)
  | false =>
    rw [hno hanc] at hm
    exact h q m hm

theorem TreeInv_new (i : Int) (a : Action) (s : GameState) (pid : Option Int) :
    TreeInv (Node.new i a s pid) := by
  intro q m hm
  cases q with
  | nil =>
    simp only [nodeAt_nil, Option.some.injEq] at hm
    subst hm
    exact ⟨by simp [Node.stats, Node.new], by simp [Node.stats, Node.new],
      by simp [Node.stats, Node.new]⟩
  | cons j q' =>
    rw [nodeAt_cons] at hm
    simp [Node.new] at hm

theorem TreeInv_expandAt (t : Node) (p : List Nat) (cid : Int) (g : List Nat)
    (t' : Node) (j : Nat) (cid' : Int) (g' : List Nat)
    (h : expandAt t p cid g = some (t', j, cid', g')) (hI : TreeInv t) :
    TreeInv t' := by
  obtain ⟨_, _, m, a, hm, ha, hj, hnew, hpar, hall⟩ :=
    nodeAt_expandAt t p cid g t' j cid' g' h
  intro q m' hm'
  rcases hall q m' hm' with ⟨_, rfl⟩ | ⟨_, rfl⟩ | ⟨_, _, m₀, hm₀, hst⟩
  · exact ⟨by simp [Node.stats, Node.new], by simp [Node.stats, Node.new],
      by simp [Node.stats, Node.new]⟩
  · obtain ⟨h1, h2, h3⟩ := hI p m hm
    simp only [Node.stats, Node.visits_withChildren, Node.wins_withChildren] at *
    exact ⟨h1, h2, h3⟩
  · rw [show m'.stats = m₀.stats from hst]
    exact hI q m₀ hm₀

theorem TreeInv_stepM (C : ℝ) (simFuel : Nat) (st st' : Node × Int × List Nat)
    (h : stepM C simFuel st = some st') (hI : TreeInv st.1) : TreeInv st'.1 := by
  obtain ⟨p, sel, _, _, hcase⟩ := stepM_cases C simFuel st st' h
  rcases hcase with ⟨_, rfl⟩ | ⟨_, t', j, cid', g', res, g'', hexp, rfl⟩
  · exact TreeInv_backpropagate _ _ _ hI
  · exact TreeInv_backpropagate _ _ _
      (TreeInv_expandAt _ _ _ _ _ _ _ _ hexp hI)

theorem TreeInv_runAux (C : ℝ) (simFuel : Nat) (n : Nat)
    (st st' : Node × Int × List Nat) (h : runAux C simFuel n st = some st')
    (hI : TreeInv st.1) : TreeInv st'.1 := by
  induction n generalizing st with
  | zero =>
    simp only [runAux, Option.some.injEq] at h
    subst h
    exact hI
  | succ k ih =>
    rw [runAux] at h
    cases hs : stepM C simFuel st with
    | none => rw [hs] at h; simp at h
    | some st₁ =>
      rw [hs] at h
      exact ih st₁ h (TreeInv_stepM C simFuel st st₁ hs hI)

theorem ActInv_backpropagate (r : Bool) (t : Node) (p : List Nat)
    (h : ActInv t) : ActInv (backpropagate r t p) := by
  intro q m hm
  obtain ⟨hyes, hno⟩ := nodeAt_backpropagate r t p q
  cases hanc : ancestor q p with
  | true =>
    have h1 := hyes hanc
    rw [hm] at h1
    cases hn : nodeAt t q with
    | none => rw [hn] at h1; simp at h1
    | some m₀ =>
      rw [hn] at h1
      simp only [Option.map_some', Option.some.injEq] at h1
      have hca := congrArg Stats.childActions h1
      have hs := congrArg Stats.state h1
      simp only [Node.stats, statsBump] at hca hs
      rw [hca, hs]
      exact h q m₀ hn
  | false =>
    rw [hno hanc] at hm
    exact h q m hm

theorem ActInv_new (i : Int) (a : Action) (s : GameState) (pid : Option Int) :
    ActInv (Node.new i a s pid) := by
  intro q m hm
  cases q with
  | nil =>
    simp only [nodeAt_nil, Option.some.injEq] at hm
    subst hm
    simp [Node.new]
  | cons j q' =>
    rw [nodeAt_cons] at hm
    simp [Node.new] at hm

theorem ActInv_expandAt (t : Node) (p : List Nat) (cid : Int) (g : List Nat)
    (t' : Node) (j : Nat) (cid' : Int) (g' : List Nat)
    (h : expandAt t p cid g = some (t', j, cid', g')) (hI : ActInv t) :
    ActInv t' := by
  obtain ⟨_, _, m, a, hm, ha, hj, hnew, hpar, hall⟩ :=
    nodeAt_expandAt t p cid g t' j cid' g' h
  obtain ⟨haleg, hacont⟩ := (mem_unexplored m a).mp ha
  have hnot : a ∉ m.children.map Node.action := (contains_false_iff m a).mp hacont
  intro q m' hm'
  rcases hall q m' hm' with ⟨_, rfl⟩ | ⟨_, rfl⟩ | ⟨_, _, m₀, hm₀, hst⟩
  · simp [Node.new]
  · obtain ⟨hnd, hsub⟩ := hI p m hm
    constructor
    · simp only [Node.children_withChildren, List.map_append, List.map_cons,
        List.map_nil, Node.action_new]
      rw [List.nodup_append]
      refine ⟨hnd, by simp, ?_⟩
      intro x hx hx2
      simp only [List.mem_singleton] at hx2
      subst hx2
      exact hnot hx
    · intro b hb
      simp only [Node.children_withChildren, List.map_append, List.map_cons,
        List.map_nil, Node.action_new, List.mem_append, List.mem_singleton] at hb
      rw [Node.state_withChildren]
      rcases hb with hb | hb
      · exact hsub b hb
      · subst hb
        exact haleg
  · have hca := congrArg Stats.childActions hst
    have hs := congrArg Stats.state hst
    simp only [Node.stats] at hca hs
    rw [hca, hs]
    exact hI q m₀ hm₀

theorem ActInv_stepM (C : ℝ) (simFuel : Nat) (st st' : Node × Int × List Nat)
    (h : stepM C simFuel st = some st') (hI : ActInv st.1) : ActInv st'.1 := by
  obtain ⟨p, sel, _, _, hcase⟩ := stepM_cases C simFuel st st' h
  rcases hcase with ⟨_, rfl⟩ | ⟨_, t', j, cid', g', res, g'', hexp, rfl⟩
  · exact ActInv_backpropagate _ _ _ hI
  · exact ActInv_backpropagate _ _ _
      (ActInv_expandAt _ _ _ _ _ _ _ _ hexp hI)

theorem ActInv_runAux (C : ℝ) (simFuel : Nat) (n : Nat)
    (st st' : Node × Int × List Nat) (h : runAux C simFuel n st = some st')
    (hI : ActInv st.1) : ActInv st'.1 := by
  induction n generalizing st with
  | zero =>
    simp only [runAux, Option.some.injEq] at h
    subst h
    exact hI
  | succ k ih =>
    rw [runAux] at h
    cases hs : stepM C simFuel st with
    | none => rw [hs] at h; simp at h
    | some st₁ =>
      rw [hs] at h
      exact ih st₁ h (ActInv_stepM C simFuel st st₁ hs hI)

theorem ActInv_children_length (t : Node) (h : ActInv t) (q : List Nat)
    (m : Node) (hm : nodeAt t q = some m) :
    m.children.length ≤ m.state.my_possible_actions.length := by
  obtain ⟨hnd, hsub⟩ := h q m hm
  have hl := List.Subperm.length_le
    (List.subperm_of_subset hnd (fun a ha => hsub a ha))
  simpa using hl

/-! ### Run-level lemmas for the move selector -/

theorem isFullyExpanded_false_of_empty (t : Node) (hch : t.children = [])
    (hne : t.state.my_possible_actions ≠ []) : isFullyExpanded t = false := by
  simp only [isFullyExpanded, hch, List.length_nil]
  rw [beq_eq_false_iff_ne]
  intro h0
  exact hne (List.eq_nil_of_length_eq_zero h0.symm)

theorem select_of_empty_children (C : ℝ) (t : Node) (hch : t.children = [])
    (hne : t.state.my_possible_actions ≠ []) : select C t = some [] := by
  obtain ⟨k, hk⟩ : ∃ k, t.size = k + 1 := ⟨t.size - 1, by have := t.size_pos; omega⟩
  unfold select
  rw [hk]
  exact selectPath_of_not_fe C k t (isFullyExpanded_false_of_empty t hch hne)

theorem stepM_terminal (C : ℝ) (f : Nat) (st : Node × Int × List Nat)
    (hch : st.1.children = []) (h10 : st.1.state.round = 10)
    (hne : st.1.state.my_possible_actions ≠ []) :
    stepM C f st = some (backpropagate (evaluate st.1) st.1 [], st.2.1, st.2.2)
    ∧ (backpropagate (evaluate st.1) st.1 []).children = []
    ∧ (backpropagate (evaluate st.1) st.1 []).state = st.1.state := by
  refine ⟨?_, by simp [backpropagate, hch], by simp [backpropagate]⟩
  have hsel := select_of_empty_children C st.1 hch hne
  simp [stepM, hsel, isTerminal, h10]

theorem runAux_terminal (C : ℝ) (f : Nat) (n : Nat) (st : Node × Int × List Nat)
    (hch : st.1.children = []) (h10 : st.1.state.round = 10)
    (hne : st.1.state.my_possible_actions ≠ []) :
    ∃ st', runAux C f n st = some st' ∧ st'.1.children = []
      ∧ st'.1.state = st.1.state := by
  induction n generalizing st with
  | zero => exact ⟨st, rfl, hch, rfl⟩
  | succ k ih =>
    obtain ⟨hstep, hch', hst'⟩ := stepM_terminal C f st hch h10 hne
    obtain ⟨st', hrun, hch'', hst''⟩ :=
      ih (backpropagate (evaluate st.1) st.1 [], st.2.1, st.2.2) hch'
        (by rw [hst']; exact h10) (by rw [hst']; exact hne)
    refine ⟨st', ?_, hch'', by rw [hst'']; exact hst'⟩
    rw [runAux, hstep]
    exact hrun

theorem backpropagate_children_length (r : Bool) (t : Node) (p : List Nat) :
    (backpropagate r t p).children.length = t.children.length := by
  cases p <;> simp [backpropagate]

theorem expandAt_root_children_le (t : Node) (p : List Nat) (cid : Int)
    (g : List Nat) (t' : Node) (j : Nat) (cid' : Int) (g' : List Nat)
    (h : expandAt t p cid g = some (t', j, cid', g')) :
    t.children.length ≤ t'.children.length := by
  obtain ⟨_, _, m, a, hm, ha, hj, hnew, hpar, hall⟩ :=
    nodeAt_expandAt t p cid g t' j cid' g' h
  rcases hall [] t' rfl with ⟨habs, _⟩ | ⟨hp, ht'⟩ | ⟨_, _, m₀, hm₀, hst⟩
  · exact absurd habs (by simp)
  · subst hp
    simp only [nodeAt_nil, Option.some.injEq] at hm
    subst hm
    rw [ht']
    simp
  · simp only [nodeAt_nil, Option.some.injEq] at hm₀
    subst hm₀
    have hca := congrArg Stats.childActions hst
    simp only [Node.stats] at hca
    have := congrArg List.length hca
    simpa using le_of_eq this.symm

theorem stepM_root_children_mono (C : ℝ) (f : Nat)
    (st st' : Node × Int × List Nat) (h : stepM C f st = some st') :
    st.1.children.length ≤ st'.1.children.length := by
  obtain ⟨p, sel, _, _, hcase⟩ := stepM_cases C f st st' h
  rcases hcase with ⟨_, rfl⟩ | ⟨_, t', j, cid', g', res, g'', hexp, rfl⟩
  · simp [backpropagate_children_length]
  · calc st.1.children.length ≤ t'.children.length :=
        expandAt_root_children_le st.1 p st.2.1 st.2.2 t' j cid' g' hexp
      _ = (backpropagate res t' (p ++ [j])).children.length :=
        (backpropagate_children_length res t' (p ++ [j])).symm

theorem runAux_root_children_mono (C : ℝ) (f : Nat) (n : Nat)
    (st st' : Node × Int × List Nat) (h : runAux C f n st = some st') :
    st.1.children.length ≤ st'.1.children.length := by
  induction n generalizing st with
  | zero =>
    simp only [runAux, Option.some.injEq] at h
    subst h
    exact le_refl _
  | succ k ih =>
    rw [runAux] at h
    cases hs : stepM C f st with
    | none => rw [hs] at h; simp at h
    | some st₁ =>
      rw [hs] at h
      exact le_trans (stepM_root_children_mono C f st st₁ hs) (ih st₁ h)

theorem stepM_fresh_root (C : ℝ) (f : Nat) (st st' : Node × Int × List Nat)
    (hch : st.1.children = []) (hnt : st.1.state.round ≠ 10)
    (hne : st.1.state.my_possible_actions ≠ [])
    (h : stepM C f st = some st') : 1 ≤ st'.1.children.length := by
  obtain ⟨p, sel, hsel, hnode, hcase⟩ := stepM_cases C f st st' h
  have hsel' := select_of_empty_children C st.1 hch hne
  rw [hsel'] at hsel
  have hp : p = [] := by
    simp only [Option.some.injEq] at hsel
    exact hsel.symm
  subst hp
  simp only [nodeAt_nil, Option.some.injEq] at hnode
  subst hnode
  rcases hcase with ⟨hterm, _⟩ | ⟨_, t', j, cid', g', res, g'', hexp, rfl⟩
  · exact absurd hterm (by simp only [isTerminal, beq_iff_eq]; simpa using hnt)
  · obtain ⟨_, _, m, a, hm, ha, hj, hnew, hpar, hall⟩ :=
      nodeAt_expandAt st.1 [] st.2.1 st.2.2 t' j cid' g' hexp
    simp only [nodeAt_nil, Option.some.injEq] at hm hpar
    subst hm
    show 1 ≤ (backpropagate res t' ([] ++ [j])).children.length
    rw [backpropagate_children_length, hpar]
    simp

/-! ## Claim theorems -/

/-- C10: for every node, the terminal evaluation reports a win exactly
when `my_score` is strictly greater than `op_score`; a tie evaluates to a
loss; and on a terminal node the simulation phase returns exactly that
evaluation. -/
theorem claim_C10 (n : Node) :
    (evaluate n = true ↔ n.state.my_score > n.state.op_score)
    ∧ (n.state.my_score = n.state.op_score → evaluate n = false)
    ∧ (∀ fuel g, isTerminal n = true →
        simulate fuel n g = some (n, decide (n.state.my_score > n.state.op_score), g)) := by
  refine ⟨by simp [evaluate], ?_, ?_⟩
  · intro h
    simp [evaluate, h]
  · intro fuel g ht
    show (match rolloutAux fuel (Node.new n.id n.action n.state n.parent_id) g with
      | none => none
      | some (res, g') => some (n, res, g')) = _
    rw [rolloutAux_of_terminal fuel _ g (by simpa [isTerminal] using ht)]
    rfl

theorem claim_C10_witness :
    evaluate (Node.mk 0 1 0 .Heads ⟨4, 4, [.Heads], [.Heads], 10⟩ [] none) = false
    ∧ simulate 7 (Node.mk 0 1 0 .Heads ⟨4, 4, [.Heads], [.Heads], 10⟩ [] none) [2, 3]
      = some (Node.mk 0 1 0 .Heads ⟨4, 4, [.Heads], [.Heads], 10⟩ [] none, false, [2, 3]) := by
  have h := claim_C10 (Node.mk 0 1 0 .Heads ⟨4, 4, [.Heads], [.Heads], 10⟩ [] none)
  refine ⟨h.2.1 rfl, ?_⟩
  have h3 := h.2.2 7 [2, 3] (by decide)
  simpa using h3

/-- C5: the simulation phase leaves the persistent tree unchanged: the
`&mut` node it receives comes back exactly as it was, the rollout result
is independent of the node's children (the rollout runs on a detached
copy with no children), and writing an unchanged node back into the tree
is the identity on the tree. -/
theorem claim_C5 :
    (∀ fuel (n : Node) g out, simulate fuel n g = some out → out.1 = n)
    ∧ (∀ fuel (n : Node) cs g,
        (simulate fuel (n.withChildren cs) g).map (fun o => (o.2.1, o.2.2))
          = (simulate fuel n g).map (fun o => (o.2.1, o.2.2)))
    ∧ (∀ (t : Node) p m, nodeAt t p = some m → updateAt t p m = t) := by
  refine ⟨fun fuel n g out h => simulate_node_eq fuel n g out h,
    ?_, fun t p m h => updateAt_self t p m h⟩
  · intro fuel n cs g
    simp only [simulate, Node.id_withChildren, Node.action_withChildren,
      Node.state_withChildren, Node.parent_id_withChildren]
    cases rolloutAux fuel (Node.new n.id n.action n.state n.parent_id) g with
    | none => rfl
    | some r => rfl

theorem claim_C5_witness :
    (Node.mk 5 1 0 .Tails ⟨1, 0, [.Heads], [.Heads], 10⟩ [] none, true, ([] : List Nat)).1
      = Node.mk 5 1 0 .Tails ⟨1, 0, [.Heads], [.Heads], 10⟩ [] none
    ∧ updateAt (Node.mk 0 1 0 .Heads ⟨0, 0, [.Heads], [.Heads], 9⟩ [] none) []
        (Node.mk 0 1 0 .Heads ⟨0, 0, [.Heads], [.Heads], 9⟩ [] none)
      = Node.mk 0 1 0 .Heads ⟨0, 0, [.Heads], [.Heads], 9⟩ [] none := by
  refine ⟨claim_C5.1 4 _ [] _ rfl, claim_C5.2.2 _ [] _ rfl⟩

/-- C6: from a node whose round is at most 10 with a non-empty action
list, the rollout terminates given fuel covering the missing rounds: it
reaches, through single legal actions from non-terminal states, a state
with `round = 10` (the terminality bound), and `simulate` returns that
state's score from the searching party's perspective; each step of the
game transition advances the round by exactly 1. -/
theorem claim_C6 (n : Node) (fuel : Nat) (g : List Nat)
    (hle : n.state.round ≤ 10) (hne : n.state.my_possible_actions ≠ [])
    (hfuel : (10 - n.state.round).toNat ≤ fuel) :
    (∃ s' g', RolloutReach n.state s' ∧ s'.round = 10 ∧
      simulate fuel n g = some (n, decide (s'.my_score > s'.op_score), g'))
    ∧ (∀ s a, (applyAction s a).round = s.round + 1) := by
  refine ⟨?_, fun s a => rfl⟩
  obtain ⟨s', g', hreach, h10, hrun⟩ :=
    rolloutAux_terminates fuel (Node.new n.id n.action n.state n.parent_id) g
      (by simp) (by simpa using hle) (by simpa using hne) (by simpa using hfuel)
  refine ⟨s', g', by simpa using hreach, h10, ?_⟩
  show (match rolloutAux fuel (Node.new n.id n.action n.state n.parent_id) g with
    | none => none
    | some (res, g') => some (n, res, g')) = _
  rw [hrun]

theorem claim_C6_witness :
    (∃ s' g', RolloutReach (⟨0, 0, [Action.Heads, Action.Tails], [Action.Heads, Action.Tails], 9⟩ : GameState) s'
        ∧ s'.round = 10 ∧
        simulate 1 (Node.mk 0 1 0 .Heads ⟨0, 0, [.Heads, .Tails], [.Heads, .Tails], 9⟩ [] none) [1]
          = some (Node.mk 0 1 0 .Heads ⟨0, 0, [.Heads, .Tails], [.Heads, .Tails], 9⟩ [] none,
              decide (s'.my_score > s'.op_score), g'))
    ∧ (∀ s a, (applyAction s a).round = s.round + 1) :=
  claim_C6 (Node.mk 0 1 0 .Heads ⟨0, 0, [.Heads, .Tails], [.Heads, .Tails], 9⟩ [] none)
    1 [1] (by decide) (by decide) (by decide)

/-- C3: backpropagation with outcome `r` from the node at position `p`
updates exactly the ancestor chain: every node at a prefix of `p` (the
originating node and the root included) has `visits` incremented by 1 and
`wins` incremented by 1 iff the outcome favors the tree's perspective,
with action, state and children's actions untouched; every node off that
chain is returned unchanged, so the walk stops at the root. -/
theorem claim_C3 (r : Bool) (t : Node) (p q : List Nat) (m : Node)
    (hq : nodeAt t q = some m) :
    (ancestor q p = true →
      ∃ m', nodeAt (backpropagate r t p) q = some m' ∧
        m'.visits = m.visits + 1 ∧
        m'.wins = (if r then m.wins + 1 else m.wins) ∧
        m'.action = m.action ∧ m'.state = m.state ∧
        m'.children.map Node.action = m.children.map Node.action)
    ∧ (ancestor q p = false → nodeAt (backpropagate r t p) q = some m) := by
  obtain ⟨hyes, hno⟩ := nodeAt_backpropagate r t p q
  constructor
  · intro hanc
    have h1 := hyes hanc
    rw [hq] at h1
    cases hm' : nodeAt (backpropagate r t p) q with
    | none => rw [hm'] at h1; simp at h1
    | some m' =>
      rw [hm'] at h1
      simp only [Option.map_some', Option.some.injEq] at h1
      refine ⟨m', rfl, ?_, ?_, ?_, ?_, ?_⟩ <;>
        · have hv := congrArg Stats.visits h1
          have hw := congrArg Stats.wins h1
          have ha := congrArg Stats.action h1
          have hs := congrArg Stats.state h1
          have hca := congrArg Stats.childActions h1
          simp only [Node.stats, statsBump] at hv hw ha hs hca
          first
            | exact hv
            | (exact hw)
            | exact ha
            | exact hs
            | exact hca
  · intro hanc
    rw [hno hanc]
    exact hq

theorem claim_C3_witness :
    (∃ m', nodeAt (backpropagate true
        (Node.mk 0 3 1 .Heads ⟨0, 0, [.Heads, .Tails], [.Heads, .Tails], 0⟩
          [Node.mk 1 1 0 .Heads ⟨1, 0, [.Heads, .Tails], [.Heads, .Tails], 1⟩ [] (some 0),
           Node.mk 2 1 0 .Tails ⟨0, 1, [.Heads, .Tails], [.Heads, .Tails], 1⟩ [] (some 0)]
          none) [0]) [0] = some m' ∧
        m'.visits = 1 + 1 ∧ m'.wins = (if true then 0 + 1 else 0) ∧
        m'.action = Action.Heads ∧
        m'.state = (⟨1, 0, [.Heads, .Tails], [.Heads, .Tails], 1⟩ : GameState) ∧
        m'.children.map Node.action = [])
    ∧ nodeAt (backpropagate true
        (Node.mk 0 3 1 .Heads ⟨0, 0, [.Heads, .Tails], [.Heads, .Tails], 0⟩
          [Node.mk 1 1 0 .Heads ⟨1, 0, [.Heads, .Tails], [.Heads, .Tails], 1⟩ [] (some 0),
           Node.mk 2 1 0 .Tails ⟨0, 1, [.Heads, .Tails], [.Heads, .Tails], 1⟩ [] (some 0)]
          none) [0]) [1]
      = some (Node.mk 2 1 0 .Tails ⟨0, 1, [.Heads, .Tails], [.Heads, .Tails], 1⟩ [] (some 0)) := by
  constructor
  · have h := (claim_C3 true
      (Node.mk 0 3 1 .Heads ⟨0, 0, [.Heads, .Tails], [.Heads, .Tails], 0⟩
        [Node.mk 1 1 0 .Heads ⟨1, 0, [.Heads, .Tails], [.Heads, .Tails], 1⟩ [] (some 0),
         Node.mk 2 1 0 .Tails ⟨0, 1, [.Heads, .Tails], [.Heads, .Tails], 1⟩ [] (some 0)]
        none) [0] [0]
      (Node.mk 1 1 0 .Heads ⟨1, 0, [.Heads, .Tails], [.Heads, .Tails], 1⟩ [] (some 0))
      rfl).1 rfl
    simpa using h
  · exact (claim_C3 true
      (Node.mk 0 3 1 .Heads ⟨0, 0, [.Heads, .Tails], [.Heads, .Tails], 0⟩
        [Node.mk 1 1 0 .Heads ⟨1, 0, [.Heads, .Tails], [.Heads, .Tails], 1⟩ [] (some 0),
         Node.mk 2 1 0 .Tails ⟨0, 1, [.Heads, .Tails], [.Heads, .Tails], 1⟩ [] (some 0)]
        none) [0] [1]
      (Node.mk 2 1 0 .Tails ⟨0, 1, [.Heads, .Tails], [.Heads, .Tails], 1⟩ [] (some 0))
      rfl).2 rfl

/-- C2: a successful expansion picks an action among the legal actions of
the node's state that no existing child carries (the index drawn from the
random stream ranges over exactly that set, and every element of the set
is picked for some stream), builds the successor state (Heads increments
`my_score`, Tails increments `op_score`, the round advances by 1),
constructs exactly one new node with `visits = 1`, `wins = 0`, the chosen
action and that state, appends it as the last child — every older child
and every field of the expanded node being untouched — and the threaded
id counter advances by 1. -/
theorem claim_C2 (n : Node) (cid : Int) (g : List Nat) (n' : Node) (cid' : Int)
    (g' : List Nat) (h : expandNode n cid g = some (n', cid', g')) :
    ∃ a child,
      child = Node.new (cid + 1) a (applyAction n.state a) (some cid)
      ∧ (unexplored n).get? ((g.headD 0) % (unexplored n).length) = some a
      ∧ a ∈ n.state.my_possible_actions ∧ n.contains a = false
      ∧ child.visits = 1 ∧ child.wins = 0 ∧ child.action = a ∧ child.children = []
      ∧ child.state.round = n.state.round + 1
      ∧ child.state.my_score
          = (if a = .Heads then n.state.my_score + 1 else n.state.my_score)
      ∧ child.state.op_score
          = (if a = .Tails then n.state.op_score + 1 else n.state.op_score)
      ∧ child.state.my_possible_actions = n.state.my_possible_actions
      ∧ n' = n.withChildren (n.children ++ [child])
      ∧ n'.children.length = n.children.length + 1
      ∧ (∀ k, k < n.children.length → n'.children.get? k = n.children.get? k)
      ∧ n'.children.get? n.children.length = some child
      ∧ n'.visits = n.visits ∧ n'.wins = n.wins ∧ n'.action = n.action
      ∧ n'.state = n.state
      ∧ cid' = cid + 1 ∧ g' = g.tail
      ∧ (∀ b ∈ unexplored n, ∃ g₀ : List Nat,
          expandNode n cid g₀ = some
            (n.withChildren (n.children ++
              [Node.new (cid + 1) b (applyAction n.state b) (some cid)]),
             cid + 1, g₀.tail)) := by
  cases hu : unexplored n with
  | nil => rw [expandNode_of_unexplored_nil n cid g hu] at h; simp at h
  | cons x xs =>
    rw [expandNode_of_unexplored_cons n cid g x xs hu] at h
    simp only [Option.some.injEq, Prod.mk.injEq] at h
    obtain ⟨hn', hcid, hg⟩ := h
    set idx := (g.headD 0) % (x :: xs).length with hidx
    have hlt : idx < (x :: xs).length := Nat.mod_lt _ (Nat.succ_pos _)
    set a := (x :: xs).get ⟨idx, hlt⟩ with ha
    have hmem : a ∈ unexplored n := by rw [hu]; exact List.get_mem _ _ _
    obtain ⟨hleg, hcont⟩ := (mem_unexplored n a).mp hmem
    refine ⟨a, Node.new (cid + 1) a (applyAction n.state a) (some cid),
      rfl, ?_, hleg, hcont, rfl, rfl, rfl, rfl, rfl, rfl, rfl, rfl,
      hn'.symm, ?_, ?_, ?_, ?_, ?_, ?_, ?_, hcid.symm, hg.symm, ?_⟩
    · exact List.get?_eq_get hlt
    · rw [← hn']
      simp
    · intro k hk
      rw [← hn']
      simp only [Node.children_withChildren]
      exact List.get?_append hk
    · rw [← hn']
      simp only [Node.children_withChildren]
      exact List.get?_concat_length _ _
    · rw [← hn']; simp
    · rw [← hn']; simp
    · rw [← hn']; simp
    · rw [← hn']; simp
    · intro b hb
      obtain ⟨⟨i, hi⟩, rfl⟩ := List.mem_iff_get.mp hb
      refine ⟨[i], ?_⟩
      rw [expandNode_of_unexplored_cons n cid [i] x xs hu]
      have hmod : (([i] : List Nat).headD 0) % (x :: xs).length = i := by
        simpa using Nat.mod_eq_of_lt hi
      simp only [hmod]

theorem claim_C2_witness :
    ∃ a child,
      child = Node.new (7 + 1) a (applyAction wNode.state a) (some 7)
      ∧ (unexplored wNode).get?
          ((([5, 9] : List Nat).headD 0) % (unexplored wNode).length) = some a
      ∧ a ∈ wNode.state.my_possible_actions ∧ wNode.contains a = false
      ∧ child.visits = 1 ∧ child.wins = 0 ∧ child.action = a ∧ child.children = []
      ∧ child.state.round = wNode.state.round + 1
      ∧ child.state.my_score
          = (if a = .Heads then wNode.state.my_score + 1 else wNode.state.my_score)
      ∧ child.state.op_score
          = (if a = .Tails then wNode.state.op_score + 1 else wNode.state.op_score)
      ∧ child.state.my_possible_actions = wNode.state.my_possible_actions
      ∧ wNode.withChildren (wNode.children ++
          [Node.new 8 .Tails (applyAction wState .Tails) (some 7)])
          = wNode.withChildren (wNode.children ++ [child]) := by
  obtain ⟨a, child, h1, h2, h3, h4, h5, h6, h7, h8, h9, h10, h11, h12, h13, rest⟩ :=
    claim_C2 wNode 7 [5, 9]
      (wNode.withChildren (wNode.children ++
        [Node.new 8 .Tails (applyAction wState .Tails) (some 7)]))
      8 ([5, 9].tail) rfl
  exact ⟨a, child, h1, h2, h3, h4, h5, h6, h7, h8, h9, h10, h11, h12, h13⟩

/-- C9: the search engine is deterministic once the random source is
fixed: with the stream of random draws made an explicit input (the only
spec-compliant reading, the source's implicit `thread_rng` not being
seedable), two runs from the same initial state with the same stream and
the same iteration count return the same chosen action and build the same
root visit-count distribution. -/
theorem claim_C9 (C : ℝ) (simFuel : Nat) (s : GameState) (n : Nat)
    (g₁ g₂ : List Nat) (h : g₁ = g₂) :
    mcts C simFuel s n g₁ = mcts C simFuel s n g₂
    ∧ (runAux C simFuel n (initRoot s, 0, g₁)).map
        (fun st => st.1.children.map Node.visits)
      = (runAux C simFuel n (initRoot s, 0, g₂)).map
        (fun st => st.1.children.map Node.visits) := by
  subst h
  exact ⟨rfl, rfl⟩

theorem claim_C9_witness :
    mcts (Real.sqrt 2) 11 wState 5 [1, 2, 3] = mcts (Real.sqrt 2) 11 wState 5 [1, 2, 3]
    ∧ (runAux (Real.sqrt 2) 11 5 (initRoot wState, 0, [1, 2, 3])).map
        (fun st => st.1.children.map Node.visits)
      = (runAux (Real.sqrt 2) 11 5 (initRoot wState, 0, [1, 2, 3])).map
        (fun st => st.1.children.map Node.visits) :=
  claim_C9 (Real.sqrt 2) 11 wState 5 [1, 2, 3] [1, 2, 3] rfl

theorem bestChildIdx_spec (C : ℝ) (n : Node) (j : Nat)
    (h : bestChildIdx C n = some j) : IsFirstUctMax C n j := by
  simp only [bestChildIdx, Option.map_eq_some'] at h
  obtain ⟨⟨j', v⟩, hfa, hj⟩ := h
  cases hj
  obtain ⟨hj, hv, hmax, hstrict⟩ := firstArgmax_spec _ _ _ _ hfa
  exact ⟨hj, fun i hi => hv ▸ hmax i hi, fun i hij hi => hv ▸ hstrict i hij hi⟩

/-- C1: a successful selection pass starts at the root and stops at the
first node reached that is terminal or not fully expanded (under the
invariant, valid for this game's trees, that terminal nodes are never
fully expanded): the returned node is terminal or not fully expanded, and
every node strictly before it on the path was fully expanded, not
terminal, and was left through the child chosen by the UCB1 policy — the
child maximizing `wins/visits + C*sqrt(ln(parent.visits)/visits)`, exact
ties broken by first in insertion order. -/
theorem claim_C1 (C : ℝ) (t : Node) (p : List Nat)
    (hsel : select C t = some p)
    (hterm : ∀ q m, nodeAt t q = some m → isTerminal m = true →
      isFullyExpanded m = false) :
    (∃ m, nodeAt t p = some m ∧
      (isTerminal m = true ∨ isFullyExpanded m = false) ∧
      isFullyExpanded m = false)
    ∧ (∀ q k r, p = q ++ k :: r →
        ∃ mq, nodeAt t q = some mq ∧ isFullyExpanded mq = true ∧
          isTerminal mq = false ∧ bestChildIdx C mq = some k ∧
          IsFirstUctMax C mq k) := by
  obtain ⟨⟨m, hm, hmf⟩, hsteps⟩ := selectPath_spec C t.size t p hsel
  refine ⟨⟨m, hm, Or.inr hmf, hmf⟩, ?_⟩
  intro q k r hqkr
  obtain ⟨mq, hmq, hmqf, hmqb⟩ := hsteps q k r hqkr
  refine ⟨mq, hmq, hmqf, ?_, hmqb, bestChildIdx_spec C mq k hmqb⟩
  cases htermq : isTerminal mq with
  | false => rfl
  | true => exact absurd hmqf (by simp [hterm q mq hmq htermq])

theorem claim_C1_witness :
    (∃ m, nodeAt (initRoot wState) [] = some m ∧
      (isTerminal m = true ∨ isFullyExpanded m = false) ∧
      isFullyExpanded m = false)
    ∧ (∀ q k r, ([] : List Nat) = q ++ k :: r →
        ∃ mq, nodeAt (initRoot wState) q = some mq ∧
          isFullyExpanded mq = true ∧ isTerminal mq = false ∧
          bestChildIdx (Real.sqrt 2) mq = some k ∧
          IsFirstUctMax (Real.sqrt 2) mq k) := by
  refine claim_C1 (Real.sqrt 2) (initRoot wState) [] rfl ?_
  intro q m hq ht
  cases q with
  | nil =>
    simp only [nodeAt_nil, Option.some.injEq] at hq
    subst hq
    exact absurd ht (by decide)
  | cons j q' =>
    rw [nodeAt_cons] at hq
    simp [initRoot, Node.new] at hq

/-- C4: every node of the search tree satisfies `1 ≤ visits`,
`0 ≤ wins ≤ visits` at every point of a search call: node creation and
the initial root establish the invariant, expansion and backpropagation
(the only tree-mutating phases, the mid-iteration point included)
preserve it, and hence it holds after every iteration prefix of a run. -/
theorem claim_C4 :
    (∀ (i : Int) (a : Action) (s : GameState) (pid : Option Int),
      TreeInv (Node.new i a s pid))
    ∧ (∀ s : GameState, TreeInv (initRoot s))
    ∧ (∀ (r : Bool) (t : Node) (p : List Nat),
        TreeInv t → TreeInv (backpropagate r t p))
    ∧ (∀ (t : Node) (p : List Nat) (cid : Int) (g : List Nat) t' j cid' g',
        expandAt t p cid g = some (t', j, cid', g') → TreeInv t → TreeInv t')
    ∧ (∀ (C : ℝ) (simFuel : Nat) (s : GameState) (n : Nat) (g : List Nat) st',
        runAux C simFuel n (initRoot s, 0, g) = some st' → TreeInv st'.1) :=
  ⟨fun i a s pid => TreeInv_new i a s pid,
   fun s => TreeInv_new 0 .Heads s none,
   fun r t p h => TreeInv_backpropagate r t p h,
   fun t p cid g t' j cid' g' h hI => TreeInv_expandAt t p cid g t' j cid' g' h hI,
   fun C simFuel s n g st' h =>
     TreeInv_runAux C simFuel n (initRoot s, 0, g) st' h (TreeInv_new 0 .Heads s none)⟩

theorem claim_C4_witness :
    TreeInv (backpropagate true (initRoot wState) [])
    ∧ TreeInv (Node.mk 0 2 1 .Heads wState
        [Node.mk 1 2 1 .Heads
          { my_score := 3, op_score := 1,
            my_possible_actions := [.Heads, .Tails],
            op_possible_actions := [.Heads, .Tails], round := 4 } [] (some 0)]
        none) := by
  constructor
  · exact claim_C4.2.2.1 true (initRoot wState) [] (claim_C4.2.1 wState)
  · exact claim_C4.2.2.2.2 (Real.sqrt 2) 11 wState 1 [0]
      (Node.mk 0 2 1 .Heads wState
        [Node.mk 1 2 1 .Heads
          { my_score := 3, op_score := 1,
            my_possible_actions := [.Heads, .Tails],
            op_possible_actions := [.Heads, .Tails], round := 4 } [] (some 0)]
        none, 1, []) rfl

/-- C8: in every tree of the search, no two children of a node carry the
same action, each child's action is legal in its parent's state, and so
the number of children never exceeds the number of legal actions; the
invariant holds at the root's creation, is preserved by backpropagation
and by expansion, holds after every run prefix, and each expansion adds a
child whose action differs from every sibling's action. -/
theorem claim_C8 :
    (∀ s : GameState, ActInv (initRoot s))
    ∧ (∀ (r : Bool) (t : Node) (p : List Nat),
        ActInv t → ActInv (backpropagate r t p))
    ∧ (∀ (t : Node) (p : List Nat) (cid : Int) (g : List Nat) t' j cid' g',
        expandAt t p cid g = some (t', j, cid', g') → ActInv t → ActInv t')
    ∧ (∀ (t : Node) (p : List Nat) (cid : Int) (g : List Nat) t' j cid' g',
        expandAt t p cid g = some (t', j, cid', g') →
        ∃ m a, nodeAt t p = some m ∧ a ∉ m.children.map Node.action ∧
          nodeAt t' p = some (m.withChildren (m.children ++
            [Node.new (cid + 1) a (applyAction m.state a) (some cid)])))
    ∧ (∀ (C : ℝ) (simFuel : Nat) (s : GameState) (n : Nat) (g : List Nat) st',
        runAux C simFuel n (initRoot s, 0, g) = some st' → ActInv st'.1)
    ∧ (∀ t : Node, ActInv t → ∀ q m, nodeAt t q = some m →
        m.children.length ≤ m.state.my_possible_actions.length) := by
  refine ⟨fun s => ActInv_new 0 .Heads s none,
    fun r t p h => ActInv_backpropagate r t p h,
    fun t p cid g t' j cid' g' h hI => ActInv_expandAt t p cid g t' j cid' g' h hI,
    ?_,
    fun C simFuel s n g st' h =>
      ActInv_runAux C simFuel n (initRoot s, 0, g) st' h (ActInv_new 0 .Heads s none),
    fun t h q m hm => ActInv_children_length t h q m hm⟩
  intro t p cid g t' j cid' g' h
  obtain ⟨_, _, m, a, hm, ha, hj, hnew, hpar, hall⟩ :=
    nodeAt_expandAt t p cid g t' j cid' g' h
  obtain ⟨_, hacont⟩ := (mem_unexplored m a).mp ha
  exact ⟨m, a, hm, (contains_false_iff m a).mp hacont, hpar⟩

theorem claim_C8_witness :
    ActInv (backpropagate false (initRoot wState) [])
    ∧ wNode.children.length ≤ wNode.state.my_possible_actions.length
    ∧ (∃ m a, nodeAt wNode [] = some m ∧ a ∉ m.children.map Node.action ∧
        nodeAt (wNode.withChildren (wNode.children ++
          [Node.new 8 .Tails (applyAction wState .Tails) (some 7)])) []
          = some (m.withChildren (m.children ++
            [Node.new (7 + 1) a (applyAction m.state a) (some 7)]))) := by
  have hActW : ActInv wNode := by
    intro q m hm
    cases q with
    | nil =>
      simp only [nodeAt_nil, Option.some.injEq] at hm
      subst hm
      constructor
      · simp [wNode, wChild]
      · intro b hb
        simp only [wNode, wChild, Node.children_mk, List.map_cons, List.map_nil,
          Node.action_mk, List.mem_singleton] at hb
        subst hb
        decide
    | cons k q' =>
      rw [nodeAt_cons] at hm
      cases k with
      | zero =>
        simp only [wNode, Node.children_mk, List.get?] at hm
        simp only [Option.some_bind] at hm
        cases q' with
        | nil =>
          simp only [nodeAt_nil, Option.some.injEq] at hm
          subst hm
          simp [wChild]
        | cons k' q'' =>
          rw [nodeAt_cons] at hm
          simp [wChild] at hm
      | succ k' =>
        simp only [wNode, Node.children_mk, List.get?] at hm
        cases k' <;> simp at hm
  refine ⟨claim_C8.2.1 false (initRoot wState) [] (claim_C8.1 wState),
    claim_C8.2.2.2.2.2 wNode hActW [] wNode rfl, ?_⟩
  exact claim_C8.2.2.2.1 wNode [] 7 [5, 9]
    (wNode.withChildren (wNode.children ++
      [Node.new 8 .Tails (applyAction wState .Tails) (some 7)]))
    1 8 [9] rfl

/-- C7: the move selector fails with `NoMovesAvailable` exactly when the
root has no children; a successful selection returns the action of the
child with the highest visit count, exact ties broken by first in
insertion order (all earlier children have strictly fewer visits); and
for runs over a state with a non-empty action list, the root ends up
childless exactly when the root state was terminal before any iteration
or the iteration count is zero — in particular a search from an
already-terminal state fails with `NoMovesAvailable`. -/
theorem claim_C7 :
    (∀ t : Node, bestAction t = .error .NoMovesAvailable ↔ t.children = [])
    ∧ (∀ (t : Node) (a : Action), bestAction t = .ok a →
        ∃ j, ∃ hj : j < t.children.length,
          a = (t.children.get ⟨j, hj⟩).action ∧
          (∀ i, ∀ hi : i < t.children.length,
            (t.children.get ⟨i, hi⟩).visits ≤ (t.children.get ⟨j, hj⟩).visits) ∧
          (∀ i, i < j → ∀ hi : i < t.children.length,
            (t.children.get ⟨i, hi⟩).visits < (t.children.get ⟨j, hj⟩).visits))
    ∧ (∀ (C : ℝ) (f : Nat) (s : GameState) (n : Nat) (g : List Nat) st',
        s.my_possible_actions ≠ [] →
        runAux C f n (initRoot s, 0, g) = some st' →
        (st'.1.children = [] ↔ (s.round = 10 ∨ n = 0)))
    ∧ (∀ (C : ℝ) (f : Nat) (s : GameState) (n : Nat) (g : List Nat),
        s.my_possible_actions ≠ [] → s.round = 10 →
        mcts C f s n g = some (.error .NoMovesAvailable)) := by
  refine ⟨?_, ?_, ?_, ?_⟩
  · intro t
    cases hb : bestByVisits t.children with
    | none =>
      simp only [bestAction, hb]
      simpa using (bestByVisits_eq_none_iff t.children).mp hb
    | some b =>
      simp only [bestAction, hb]
      constructor
      · intro habs
        exact absurd habs (by simp)
      · intro hch
        rw [hch] at hb
        simp [bestByVisits] at hb
  · intro t a h
    cases hb : bestByVisits t.children with
    | none => rw [bestAction, hb] at h; simp at h
    | some b =>
      rw [bestAction, hb] at h
      simp only [Except.ok.injEq] at h
      subst h
      obtain ⟨j, hj, hbj, hmax, hstrict⟩ := bestByVisits_spec t.children b hb
      exact ⟨j, hj, by rw [hbj], fun i hi => hbj ▸ hmax i hi,
        fun i hij hi => hbj ▸ hstrict i hij hi⟩
  · intro C f s n g st' hne hrun
    constructor
    · intro hch
      by_contra hcon
      push_neg at hcon
      obtain ⟨hnt, hn0⟩ := hcon
      obtain ⟨k, rfl⟩ : ∃ k, n = k + 1 := ⟨n - 1, by omega⟩
      rw [runAux] at hrun
      cases hs : stepM C f (initRoot s, 0, g) with
      | none => rw [hs] at hrun; simp at hrun
      | some st₁ =>
        rw [hs] at hrun
        have h1 : 1 ≤ st₁.1.children.length :=
          stepM_fresh_root C f (initRoot s, 0, g) st₁
            (by simp [initRoot, Node.new]) (by simpa [initRoot, Node.new] using hnt)
            (by simpa [initRoot, Node.new] using hne) hs
        have h2 := runAux_root_children_mono C f k st₁ st' hrun
        rw [hch] at h2
        simp only [List.length_nil, Nat.le_zero] at h2
        omega
    · intro hcase
      rcases hcase with h10 | hn0
      · obtain ⟨st'', hrun'', hch'', _⟩ :=
          runAux_terminal C f n (initRoot s, 0, g)
            (by simp [initRoot, Node.new]) (by simpa [initRoot, Node.new] using h10)
            (by simpa [initRoot, Node.new] using hne)
        rw [hrun''] at hrun
        simp only [Option.some.injEq] at hrun
        rw [← hrun]
        exact hch''
      · subst hn0
        simp only [runAux, Option.some.injEq] at hrun
        rw [← hrun]
        simp [initRoot, Node.new]
  · intro C f s n g hne h10
    obtain ⟨st', hrun, hch, _⟩ :=
      runAux_terminal C f n (initRoot s, 0, g)
        (by simp [initRoot, Node.new]) (by simpa [initRoot, Node.new] using h10)
        (by simpa [initRoot, Node.new] using hne)
    unfold mcts
    rw [hrun]
    simp only [Option.map_some', Option.some.injEq]
    rw [bestAction, hch]
    simp [bestByVisits]

theorem claim_C7_witness :
    mcts (Real.sqrt 2) 3 wTermState 2 [0, 1] = some (.error .NoMovesAvailable)
    ∧ (∃ j, ∃ hj : j < wNode.children.length,
        Action.Heads = (wNode.children.get ⟨j, hj⟩).action ∧
        (∀ i, ∀ hi : i < wNode.children.length,
          (wNode.children.get ⟨i, hi⟩).visits ≤ (wNode.children.get ⟨j, hj⟩).visits) ∧
        (∀ i, i < j → ∀ hi : i < wNode.children.length,
          (wNode.children.get ⟨i, hi⟩).visits < (wNode.children.get ⟨j, hj⟩).visits)) :=
  ⟨claim_C7.2.2.2 (Real.sqrt 2) 3 wTermState 2 [0, 1] (by decide) (by decide),
   claim_C7.2.1 wNode Action.Heads rfl⟩

end MCTS
